import Mathlib

/-!
Verification of the authentication/session subsystem of the UI-Vite desktop
client (electron/authentication: `auth.ts`, `config.ts`, `pat.ts`, `oauth.ts`,
and the renderer `ConnectionService`).

The embedding models:
  * the JSON values that `JSON.parse` produces for JWT payloads (restricted to
    integer numerals and to strings without `\u` escapes -- the subset
    exercised by bearer-token claims; `JSON.parse` on floats or unicode
    escapes is outside the model),
  * Node's forgiving base64 decoder and the standard base64url encoder,
  * the byte-to-string pipeline of `parseJwt` (`Buffer.toString('utf8')`,
    percent-encoding of each UTF-16 code unit modulo 256, and
    `decodeURIComponent`), exact on ASCII payloads,
  * the on-disk state (YAML config file, encrypted secret files, and the
    availability of Electron `safeStorage`) as an explicit `World` value, and
  * network calls as explicit `FetchResult` oracles with a call counter.

Dates are JavaScript `Date` values: either a millisecond timestamp or the
Invalid Date (`none`); comparisons with Invalid Date are false, as NaN
comparisons are in JavaScript.
-/

namespace UIVite

/-- Model of the JSON values produced by `JSON.parse` on token payloads.
Numbers are restricted to integers (claims such as `exp` are integral). -/
inductive Json where
  | null : Json
  | bool (b : Bool) : Json
  | num (n : Int) : Json
  | str (s : String) : Json
  | arr (elems : List Json) : Json
  | obj (fields : List (String × Json)) : Json

/-- Characters that may appear unescaped in a modelled JSON string:
printable ASCII other than the quote and the backslash. -/
def plainChar (c : Char) : Bool :=
  0x20 ≤ c.toNat && c.toNat < 0x7F && c ≠ '"' && c ≠ '\\'

/-- A string all of whose characters are plain (no escaping needed). -/
def plainStr (s : String) : Bool := s.toList.all plainChar

mutual

/-- Well-formedness of a modelled JSON value: every string (and every object
key) consists of plain printable ASCII, so serialization needs no escapes. -/
def Json.wf : Json → Bool
  | .null => true
  | .bool _ => true
  | .num _ => true
  | .str s => plainStr s
  | .arr xs => Json.wfList xs
  | .obj kvs => Json.wfFields kvs

def Json.wfList : List Json → Bool
  | [] => true
  | x :: xs => x.wf && Json.wfList xs

def Json.wfFields : List (String × Json) → Bool
  | [] => true
  | (k, v) :: kvs => plainStr k && v.wf && Json.wfFields kvs

end

/-- Decimal digits of a natural number, most significant first, accumulated
on the right; fuelled for structural recursion (any fuel above the number
itself is enough). -/
def natDigitsGo : Nat → Nat → List Char → List Char
  | 0, _, acc => acc
  | fuel + 1, n, acc =>
    let d := Char.ofNat ('0'.toNat + n % 10)
    if n < 10 then d :: acc
    else natDigitsGo fuel (n / 10) (d :: acc)

/-- Decimal digits of a natural number, most significant first. -/
def natDigits (n : Nat) : List Char := natDigitsGo (n + 1) n []

/-- Decimal numeral of an integer, as a JSON number token. -/
def intDigits (n : Int) : List Char :=
  if n < 0 then '-' :: natDigits (-n).toNat else natDigits n.toNat

example : intDigits 170 = ['1', '7', '0'] := by rfl
example : intDigits (-8) = ['-', '8'] := by rfl

mutual

/-- Serializer for modelled JSON values (the inverse direction of
`JSON.parse`), used to state what it means for a token payload to encode a
given claims object. -/
def Json.serializeChars : Json → List Char
  | .null => 'n' :: 'u' :: 'l' :: 'l' :: []
  | .bool true => 't' :: 'r' :: 'u' :: 'e' :: []
  | .bool false => 'f' :: 'a' :: 'l' :: 's' :: 'e' :: []
  | .num n => intDigits n
  | .str s => '"' :: s.toList ++ ['"']
  | .arr xs => '[' :: Json.serializeItems xs ++ [']']
  | .obj kvs => '\x7b' :: Json.serializeFields kvs ++ ['\x7d']

def Json.serializeItems : List Json → List Char
  | [] => []
  | [x] => Json.serializeChars x
  | x :: y :: rest => Json.serializeChars x ++ ',' :: Json.serializeItems (y :: rest)

def Json.serializeFields : List (String × Json) → List Char
  | [] => []
  | [(k, v)] => '"' :: k.toList ++ '"' :: ':' :: Json.serializeChars v
  | (k, v) :: f :: rest =>
    '"' :: k.toList ++ '"' :: ':' :: Json.serializeChars v ++ ',' :: Json.serializeFields (f :: rest)

end

/-- Serialized form of a JSON value as a string. -/
def Json.serialize (j : Json) : String := ⟨j.serializeChars⟩

example : (Json.obj [("exp", Json.num 17)]).serialize = "\x7b\"exp\":17\x7d" := by rfl

/-- JSON insignificant whitespace, skipped between tokens. -/
def skipWs : List Char → List Char
  | [] => []
  | c :: cs => if c = ' ' || c = '\t' || c = '\n' || c = '\r' then skipWs cs else c :: cs

/-- The character denoted by a single-character JSON string escape. -/
def escChar : Char → Option Char
  | '"' => some '"'
  | '\\' => some '\\'
  | '/' => some '/'
  | 'b' => some (Char.ofNat 8)
  | 'f' => some (Char.ofNat 12)
  | 'n' => some '\n'
  | 'r' => some '\r'
  | 't' => some '\t'
  | _ => none

/-- Reads the body of a JSON string after the opening quote, returning the
decoded characters and the input remaining after the closing quote.
Raw control characters are rejected, as `JSON.parse` rejects them. Each step
consumes at least one character, so fuel equal to the input length (as the
wrapper passes) is always enough. -/
def parseStrGo : Nat → List Char → Option (List Char × List Char)
  | 0, _ => none
  | _ + 1, [] => none
  | fuel + 1, c :: cs =>
    if c = '"' then some ([], cs)
    else if c = '\\' then
      match cs with
      | [] => none
      | e :: cs2 =>
        match escChar e with
        | none => none
        | some ec =>
          match parseStrGo fuel cs2 with
          | none => none
          | some (b, r) => some (ec :: b, r)
    else if c.toNat < 0x20 then none
    else
      match parseStrGo fuel cs with
      | none => none
      | some (b, r) => some (c :: b, r)

/-- String-body reader at adequate fuel. -/
def parseStrChars (cs : List Char) : Option (List Char × List Char) :=
  parseStrGo cs.length cs

/-- Value of a digit string, most significant digit first. -/
def digitsVal (ds : List Char) : Nat :=
  ds.foldl (fun acc c => acc * 10 + (c.toNat - '0'.toNat)) 0

/-- Reads an integer numeral (optional minus sign, then digits). -/
def parseIntTok (cs : List Char) : Option (Int × List Char) :=
  match cs with
  | [] => none
  | c :: rest =>
    if c = '-' then
      let ds := rest.takeWhile Char.isDigit
      if ds.isEmpty then none
      else some (-(digitsVal ds : Int), rest.dropWhile Char.isDigit)
    else
      let ds := (c :: rest).takeWhile Char.isDigit
      if ds.isEmpty then none
      else some ((digitsVal ds : Int), (c :: rest).dropWhile Char.isDigit)

/-- Consumes an expected literal keyword tail. -/
def eatLit : List Char → List Char → Option (List Char)
  | [], rest => some rest
  | _ :: _, [] => none
  | p :: ps, c :: rest => if c = p then eatLit ps rest else none

mutual

/-- Recursive-descent JSON value reader with explicit fuel, modelling
`JSON.parse` on the value grammar covered by this embedding. -/
def parseVal : Nat → List Char → Option (Json × List Char)
  | 0, _ => none
  | fuel + 1, cs =>
    match skipWs cs with
    | [] => none
    | c :: r =>
      if c = 'n' then
        match eatLit ['u', 'l', 'l'] r with
        | some r2 => some (.null, r2)
        | none => none
      else if c = 't' then
        match eatLit ['r', 'u', 'e'] r with
        | some r2 => some (.bool true, r2)
        | none => none
      else if c = 'f' then
        match eatLit ['a', 'l', 's', 'e'] r with
        | some r2 => some (.bool false, r2)
        | none => none
      else if c = '"' then
        match parseStrChars r with
        | some (b, rest) => some (.str ⟨b⟩, rest)
        | none => none
      else if c = '[' then
        match skipWs r with
        | [] => none
        | c2 :: r2 =>
          if c2 = ']' then some (.arr [], r2)
          else
            match parseItems fuel (c2 :: r2) with
            | some (xs, rest) => some (.arr xs, rest)
            | none => none
      else if c = '\x7b' then
        match skipWs r with
        | [] => none
        | c2 :: r2 =>
          if c2 = '\x7d' then some (.obj [], r2)
          else
            match parseFields fuel (c2 :: r2) with
            | some (kvs, rest) => some (.obj kvs, rest)
            | none => none
      else if c = '-' || c.isDigit then
        match parseIntTok (c :: r) with
        | some (n, rest) => some (.num n, rest)
        | none => none
      else none

/-- Reads the comma-separated items of a non-empty JSON array, including the
closing bracket. -/
def parseItems : Nat → List Char → Option (List Json × List Char)
  | 0, _ => none
  | fuel + 1, cs =>
    match parseVal fuel cs with
    | none => none
    | some (j, rest) =>
      match skipWs rest with
      | [] => none
      | c :: r2 =>
        if c = ',' then
          match parseItems fuel r2 with
          | some (xs, rest2) => some (j :: xs, rest2)
          | none => none
        else if c = ']' then some ([j], r2)
        else none

/-- Reads the comma-separated members of a non-empty JSON object, including
the closing brace. -/
def parseFields : Nat → List Char → Option (List (String × Json) × List Char)
  | 0, _ => none
  | fuel + 1, cs =>
    match skipWs cs with
    | [] => none
    | c :: r =>
      if c = '"' then
        match parseStrChars r with
        | none => none
        | some (k, rest) =>
          match skipWs rest with
          | [] => none
          | c2 :: r2 =>
            if c2 = ':' then
              match parseVal fuel r2 with
              | none => none
              | some (v, rest2) =>
                match skipWs rest2 with
                | [] => none
                | c3 :: r3 =>
                  if c3 = ',' then
                    match parseFields fuel r3 with
                    | none => none
                    | some (kvs, rest3) => some ((⟨k⟩, v) :: kvs, rest3)
                  else if c3 = '\x7d' then some ([(⟨k⟩, v)], r3)
                  else none
            else none
      else none

end

/-- Model of `JSON.parse`: reads one JSON value and requires only whitespace
to remain. -/
def jsonParse (s : String) : Option Json :=
  match parseVal (s.length + 1) s.toList with
  | none => none
  | some (j, rest) => if (skipWs rest).isEmpty then some j else none

example : jsonParse "\x7b\"exp\":17\x7d" = some (.obj [("exp", .num 17)]) := by rfl

example : jsonParse "\x7b\"a\":[1,-2,true,null,\"x\"]\x7d" =
    some (.obj [("a", .arr [.num 1, .num (-2), .bool true, .null, .str "x"])]) := by rfl

example : jsonParse "\x7b\"exp\":\x7d" = none := by rfl

/-! ### Base64 (standard and url variants)

`parseJwt` maps the base64url payload to standard base64 by two global
character replacements and then decodes it with Node's `Buffer.from(_,
'base64')`, which ignores characters outside the base64 alphabet and stops at
the first `=`. The encoder below produces unpadded base64url, the alphabet
used inside compact JWTs. -/

/-- The base64url alphabet, indexed by 6-bit value. -/
def b64UrlAlphabet : List Char :=
  "ABCDEFGHIJKLMNOPQRSTUVWXYZabcdefghijklmnopqrstuvwxyz0123456789-_".toList

/-- The base64url character for a 6-bit value. -/
def b64UrlChar (v : Nat) : Char := b64UrlAlphabet.getD v 'A'

/-- The standard base64 alphabet, indexed by 6-bit value. -/
def b64StdAlphabet : List Char :=
  "ABCDEFGHIJKLMNOPQRSTUVWXYZabcdefghijklmnopqrstuvwxyz0123456789+/".toList

/-- The 6-bit value of a standard base64 character, if it is one. -/
def b64StdVal (c : Char) : Option Nat := b64StdAlphabet.findIdx? (· = c)

/-- Packs bytes into 6-bit values, three bytes to four values, with the usual
truncated groups for a trailing one or two bytes (unpadded). -/
def b64EncodeVals : List Nat → List Nat
  | [] => []
  | [b1] => [b1 / 4, b1 % 4 * 16]
  | [b1, b2] => [b1 / 4, b1 % 4 * 16 + b2 / 16, b2 % 16 * 4]
  | b1 :: b2 :: b3 :: rest =>
    b1 / 4 :: (b1 % 4 * 16 + b2 / 16) :: (b2 % 16 * 4 + b3 / 64) :: b3 % 64 :: b64EncodeVals rest

/-- Unpacks 6-bit values into bytes, four values to three bytes; a trailing
group of two or three values yields one or two bytes, a lone value none. -/
def b64DecodeVals : List Nat → List Nat
  | [] => []
  | [_] => []
  | [c1, c2] => [c1 * 4 + c2 / 16]
  | [c1, c2, c3] => [c1 * 4 + c2 / 16, c2 % 16 * 16 + c3 / 4]
  | c1 :: c2 :: c3 :: c4 :: rest =>
    (c1 * 4 + c2 / 16) :: (c2 % 16 * 16 + c3 / 4) :: (c3 % 4 * 64 + c4) :: b64DecodeVals rest

/-- Unpadded base64url encoding of a byte sequence. -/
def b64UrlEncodeChars (bs : List Nat) : List Char := (b64EncodeVals bs).map b64UrlChar

/-- Model of Node's forgiving `Buffer.from(s, 'base64')`: stops at the first
padding character, drops characters outside the alphabet, and decodes the
surviving 6-bit values. -/
def nodeBase64Decode (s : String) : List Nat :=
  b64DecodeVals ((s.toList.takeWhile (· ≠ '=')).filterMap b64StdVal)

/-- The base64url-to-base64 character replacement performed by `parseJwt`:
a global replace of dash by plus, then of underscore by slash. -/
def urlToStdChar (c : Char) : Char :=
  if c = '-' then '+' else if c = '_' then '/' else c

/-! ### The byte-to-string pipeline of `parseJwt`

`parseJwt` turns the decoded payload bytes into a string via
`Buffer.toString('utf8')` (UTF-8 with replacement characters), then
percent-encodes every UTF-16 code unit modulo 256 as `'%' + hex`, then
applies `decodeURIComponent`, which re-decodes the percent bytes as strict
UTF-8 and throws a `URIError` on malformed sequences. The composition is the
identity on ASCII payloads, which is all a real JWT payload contains; the
model is exact there and a reasonable total function elsewhere. -/

/-- The Unicode replacement character U+FFFD. -/
def replChar : Char := Char.ofNat 0xFFFD

/-- Whether a byte is a UTF-8 continuation byte. -/
def isCont (b : Nat) : Bool := 0x80 ≤ b && b < 0xC0

/-- The character for a code point, or U+FFFD when the code point is not a
valid scalar value. -/
def charOfCp (n : Nat) : Char := if n.isValidChar then Char.ofNat n else replChar

/-- UTF-8 decoding with replacement characters for invalid sequences, the
behaviour of `Buffer.toString('utf8')`; fuelled so that it computes by
structural recursion. Each step consumes at least one byte, so fuel equal to
the byte count (as supplied by `utf8DecodeReplace`) is always enough. -/
def utf8DecodeAux : Nat → List Nat → List Char
  | 0, _ => []
  | _ + 1, [] => []
  | fuel + 1, b :: rest =>
    if b < 0x80 then Char.ofNat b :: utf8DecodeAux fuel rest
    else if b < 0xC2 then replChar :: utf8DecodeAux fuel rest
    else if b < 0xE0 then
      match rest with
      | b2 :: rest2 =>
        if isCont b2 then charOfCp ((b - 0xC0) * 64 + (b2 - 0x80)) :: utf8DecodeAux fuel rest2
        else replChar :: utf8DecodeAux fuel (b2 :: rest2)
      | [] => [replChar]
    else if b < 0xF0 then
      match rest with
      | b2 :: b3 :: rest3 =>
        if isCont b2 && isCont b3 then
          charOfCp ((b - 0xE0) * 4096 + (b2 - 0x80) * 64 + (b3 - 0x80)) :: utf8DecodeAux fuel rest3
        else replChar :: utf8DecodeAux fuel rest
      | _ => [replChar]
    else if b < 0xF5 then
      match rest with
      | b2 :: b3 :: b4 :: rest4 =>
        if isCont b2 && isCont b3 && isCont b4 then
          charOfCp ((b - 0xF0) * 262144 + (b2 - 0x80) * 4096 + (b3 - 0x80) * 64 + (b4 - 0x80)) ::
            utf8DecodeAux fuel rest4
        else replChar :: utf8DecodeAux fuel rest
      | _ => [replChar]
    else replChar :: utf8DecodeAux fuel rest

/-- UTF-8 decoding with replacement characters, the behaviour of
`Buffer.toString('utf8')`. -/
def utf8DecodeReplace (bs : List Nat) : List Char := utf8DecodeAux bs.length bs

/-- Lowercase hexadecimal digit, as produced by `Number.toString(16)`. -/
def hexDigitChar (n : Nat) : Char :=
  if n < 10 then Char.ofNat ('0'.toNat + n) else Char.ofNat ('a'.toNat + n - 10)

/-- The percent-encoding step of `parseJwt`: every UTF-16 code unit becomes
`'%'` followed by the two lowest hex digits of its code
(`('00' + c.charCodeAt(0).toString(16)).slice(-2)`). -/
def percentEncode (cs : List Char) : List Char :=
  (cs.map fun c => ['%', hexDigitChar (c.toNat % 256 / 16), hexDigitChar (c.toNat % 16)]).flatten

/-- Value of a hexadecimal digit character, either case. -/
def hexVal (c : Char) : Option Nat :=
  if '0' ≤ c ∧ c ≤ '9' then some (c.toNat - '0'.toNat)
  else if 'a' ≤ c ∧ c ≤ 'f' then some (c.toNat - 'a'.toNat + 10)
  else if 'A' ≤ c ∧ c ≤ 'F' then some (c.toNat - 'A'.toNat + 10)
  else none

/-- Reads one percent group: a `'%'` followed by two hexadecimal digits,
giving the byte and the remaining input. -/
def pctByte : List Char → Option (Nat × List Char)
  | c :: h :: l :: rest =>
    if c = '%' then
      match hexVal h, hexVal l with
      | some hv, some lv => some (hv * 16 + lv, rest)
      | _, _ => none
    else none
  | _ => none

/-- Worker for the `decodeURIComponent` model: percent groups are decoded as
strict UTF-8 (returning `none` where the real function throws `URIError`),
other characters pass through. Fuelled for structural recursion; each step
consumes at least one character, so fuel above the input length (as the
wrapper passes) is always enough. -/
def decodeUriGo : Nat → List Char → Option (List Char)
  | 0, _ => none
  | _ + 1, [] => some []
  | fuel + 1, c :: rest =>
    if c = '%' then
      match pctByte (c :: rest) with
      | none => none
      | some (b, rest1) =>
        if b < 0x80 then
          match decodeUriGo fuel rest1 with
          | some cs => some (Char.ofNat b :: cs)
          | none => none
        else if b < 0xC2 then none
        else if b < 0xE0 then
          match pctByte rest1 with
          | none => none
          | some (b2, rest2) =>
            if isCont b2 then
              let cp := (b - 0xC0) * 64 + (b2 - 0x80)
              if cp.isValidChar then
                match decodeUriGo fuel rest2 with
                | some cs => some (Char.ofNat cp :: cs)
                | none => none
              else none
            else none
        else if b < 0xF0 then
          match pctByte rest1 with
          | none => none
          | some (b2, rest2) =>
            match pctByte rest2 with
            | none => none
            | some (b3, rest3) =>
              if isCont b2 && isCont b3 then
                let cp := (b - 0xE0) * 4096 + (b2 - 0x80) * 64 + (b3 - 0x80)
                if cp.isValidChar then
                  match decodeUriGo fuel rest3 with
                  | some cs => some (Char.ofNat cp :: cs)
                  | none => none
                else none
              else none
        else if b < 0xF5 then
          match pctByte rest1 with
          | none => none
          | some (b2, rest2) =>
            match pctByte rest2 with
            | none => none
            | some (b3, rest3) =>
              match pctByte rest3 with
              | none => none
              | some (b4, rest4) =>
                if isCont b2 && isCont b3 && isCont b4 then
                  let cp := (b - 0xF0) * 262144 + (b2 - 0x80) * 4096 + (b3 - 0x80) * 64 +
                    (b4 - 0x80)
                  if cp.isValidChar then
                    match decodeUriGo fuel rest4 with
                    | some cs => some (Char.ofNat cp :: cs)
                    | none => none
                  else none
                else none
        else none
    else
      match decodeUriGo fuel rest with
      | some cs => some (c :: cs)
      | none => none

/-- Model of `decodeURIComponent`, at adequate fuel. -/
def decodeUriComp (cs : List Char) : Option (List Char) := decodeUriGo (cs.length + 1) cs

/-- The full byte-to-string pipeline of `parseJwt` past the base64 decode. -/
def pipelineDecode (bs : List Nat) : Option String :=
  (decodeUriComp (percentEncode (utf8DecodeReplace bs))).map fun cs => ⟨cs⟩

example : pipelineDecode [0x7b, 0x7d] = some "\x7b\x7d" := by rfl

/-! ### The Token Codec (`parseJwt`, `getTokenDetails`, `checkTokenExpired`
in `auth.ts`) -/

/-- Worker for `jsSplit`: accumulates the current segment (reversed). -/
def splitOnCharAux (sep : Char) : List Char → List Char → List (List Char)
  | [], acc => [acc.reverse]
  | c :: cs, acc =>
    if c = sep then acc.reverse :: splitOnCharAux sep cs []
    else splitOnCharAux sep cs (c :: acc)

/-- Model of JavaScript `String.prototype.split` with a single-character
separator: `''.split('.')` is `['']`, separators at the ends produce empty
segments. -/
def jsSplit (s : String) (sep : Char) : List String :=
  (splitOnCharAux sep s.toList []).map fun l => ⟨l⟩

/-- JavaScript `Date` values: a millisecond timestamp, or `none` for the
Invalid Date (NaN timestamp). -/
abbrev JsDate := Option Int

/-- JavaScript `<` on dates: false whenever either side is Invalid, as NaN
comparisons are. -/
def jsLt : JsDate → JsDate → Bool
  | some x, some y => x < y
  | _, _ => false

/-- JavaScript `<=` on dates: false whenever either side is Invalid. -/
def jsLe : JsDate → JsDate → Bool
  | some x, some y => x ≤ y
  | _, _ => false

/-- First binding of a key in a parsed JSON object. (JavaScript object
literals with duplicate keys keep the last one; the tokens in this
development have distinct keys, where the two notions agree.) -/
def lookupField (kvs : List (String × Json)) (k : String) : Option Json :=
  match kvs.find? (fun p => p.1 = k) with
  | some (_, v) => some v
  | none => none

/-- The `exp` claim of a parsed payload, when it is a number; any other shape
behaves as NaN downstream (an Invalid Date). -/
def getExp (j : Json) : Option Int :=
  match j with
  | .obj kvs =>
    match lookupField kvs "exp" with
    | some (.num n) => some n
    | _ => none
  | _ => none

/-- The base64url payload segment decoded to a string: the character
replacement, Node base64 decode and byte-to-string pipeline that `parseJwt`
performs on `parts[1]`. -/
def decodePayloadSeg (seg : String) : Option String :=
  pipelineDecode (nodeBase64Decode ⟨seg.toList.map urlToStdChar⟩)

/-- `parseJwt` of `auth.ts`: splits the token on dots and decodes segment
index 1 as a claims object. The segment count is never checked; when there
is no segment 1 the `replace` call on `undefined` throws a `TypeError`,
returned here as an `Except.error` like the other thrown decoding errors. -/
def parseJwt (token : String) : Except String Json :=
  match (jsSplit token '.').get? 1 with
  | none => .error "TypeError: token has no payload segment"
  | some seg =>
    match decodePayloadSeg seg with
    | none => .error "URIError: URI malformed"
    | some payload =>
      match jsonParse payload with
      | none => .error "SyntaxError: unexpected token in JSON"
      | some j => .ok j

/-- The bytes of an ASCII string (the UTF-8 bytes, for the ASCII payloads
this development constructs). -/
def strBytes (s : String) : List Nat := s.toList.map Char.toNat

/-- Unpadded base64url encoding of an ASCII string. -/
def b64UrlOfString (s : String) : String := ⟨b64UrlEncodeChars (strBytes s)⟩

/-- A compact three-segment token with the given payload text. -/
def mkJwt (header payload sig : String) : String :=
  header ++ "." ++ b64UrlOfString payload ++ "." ++ sig

example : parseJwt (mkJwt "h" "\x7b\"exp\":1\x7d" "s") = .ok (.obj [("exp", .num 1)]) := by rfl

example : parseJwt "h.e30.s.x" = .ok (.obj []) := by rfl

example : parseJwt "h.!e30.s" = .ok (.obj []) := by rfl

example : parseJwt "nodotshere" = .error "TypeError: token has no payload segment" := by rfl

/-- The `expiry` computed from a claims object: `new Date(claims.exp * 1000)`,
Invalid when `exp` is not a number. -/
def tokenExpiryDate (j : Json) : JsDate := (getExp j).map (· * 1000)

/-- Claims together with the derived expiry, as returned by
`getTokenDetails` in `auth.ts`; errors propagate as thrown exceptions. -/
structure TokenDetails where
  expiry : JsDate
  claims : Json

/-- `getTokenDetails` of `auth.ts`. -/
def getTokenDetails (token : String) : Except String TokenDetails :=
  match parseJwt token with
  | .error e => .error e
  | .ok j => .ok ⟨tokenExpiryDate j, j⟩

/-- `checkTokenExpired` of `auth.ts`: `new Date(parseJwt(token).exp * 1000) <
new Date()` with `now` the current millisecond timestamp; parse failures
propagate as thrown exceptions. -/
def checkTokenExpired (token : String) (now : Int) : Except String Bool :=
  match parseJwt token with
  | .error e => .error e
  | .ok j => .ok (jsLt (tokenExpiryDate j) (some now))

example : checkTokenExpired (mkJwt "h" "\x7b\"exp\":1\x7d" "s") 2000 = .ok true := by rfl

example : checkTokenExpired (mkJwt "h" "\x7b\"exp\":1\x7d" "s") 500 = .ok false := by rfl

/-! ### On-disk state: the Environment Registry (`config.ts`) and the
Secret Store

The world value carries the parsed YAML config file (`none` when the file is
missing or unreadable), the encrypted secret files keyed by file name, and
whether Electron `safeStorage` reports encryption available. A secret file
is either a valid encryption of a string or corrupt (decryption throws). -/

/-- The global auth mode. -/
inductive AuthType where
  | oauth : AuthType
  | pat : AuthType
deriving DecidableEq

/-- One environment's connection URLs, as stored in `config.yaml`. -/
structure EnvConfig where
  tenanturl : String
  baseurl : String
deriving DecidableEq

/-- The parsed `config.yaml` (`CLIConfig` in `config.ts`). The environments
mapping is a key-value list in object iteration (insertion) order, matching
`Object.keys` enumeration of the parsed YAML mapping. -/
structure CLIConfig where
  authtype : AuthType
  activeenvironment : String
  environments : List (String × EnvConfig)
deriving DecidableEq

/-- An encrypted secret file on disk. -/
inductive SecretFile where
  | enc (value : String) : SecretFile
  | corrupt : SecretFile
deriving DecidableEq

/-- The externally visible state the authentication subsystem reads and
writes. -/
structure World where
  config : Option CLIConfig
  secrets : String → Option SecretFile
  encAvailable : Bool

/-- `replace(/[^a-zA-Z0-9]/g, '_')` from `formatSecureFilename`. -/
def sanitizeName (s : String) : String :=
  ⟨s.toList.map fun c =>
    if ('a' ≤ c ∧ c ≤ 'z') ∨ ('A' ≤ c ∧ c ≤ 'Z') ∨ ('0' ≤ c ∧ c ≤ '9') then c else '_'⟩

/-- `formatSecureFilename`/`buildSecretFilePath` of `config.ts`: the file a
secret `(key, environment)` pair lives in. -/
def secretFileName (key environment : String) : String :=
  sanitizeName key ++ "_" ++ sanitizeName environment ++ ".enc"

/-- The body of the `try` block of `getSecureValue`: unavailable encryption
and failed decryption throw, a missing file reads as the empty string. -/
def getSecureTry (w : World) (key environment : String) : Except String String :=
  if !w.encAvailable then .error "Encryption not available"
  else
    match w.secrets (secretFileName key environment) with
    | none => .ok ""
    | some (.enc v) => .ok v
    | some .corrupt => .error "decryptString failed"

/-- `getSecureValue` of `config.ts`: any error thrown inside -- including the
encryption-unavailable error -- is caught, logged and converted to the empty
string, so the function always returns normally. -/
def getSecureValue (w : World) (key environment : String) : String :=
  match getSecureTry w key environment with
  | .ok v => v
  | .error _ => ""

/-- Writing one file into the secret directory. -/
def secretsInsert (s : String → Option SecretFile) (fname : String) (v : SecretFile) :
    String → Option SecretFile :=
  fun f => if f = fname then some v else s f

/-- Removing one file from the secret directory. -/
def secretsErase (s : String → Option SecretFile) (fname : String) :
    String → Option SecretFile :=
  fun f => if f = fname then none else s f

/-- `setSecureValue` of `config.ts`: encrypts and writes the file; when
encryption is unavailable the error is rethrown to the caller and nothing is
written. -/
def setSecureValue (w : World) (key environment value : String) :
    World × Except String Unit :=
  if !w.encAvailable then (w, .error "Encryption not available")
  else
    ({ w with
        secrets := secretsInsert w.secrets (secretFileName key environment) (.enc value) },
      .ok ())

/-- `deleteSecureValue` of `config.ts`: removes the file when present;
absence and errors are swallowed. -/
def deleteSecureValue (w : World) (key environment : String) : World :=
  { w with secrets := secretsErase w.secrets (secretFileName key environment) }

/-- `getConfig` of `config.ts`: parses the config file, throwing when it is
missing or unreadable. -/
def getConfig (w : World) : Except String CLIConfig :=
  match w.config with
  | some c => .ok c
  | none => .error "Error reading config file"

/-- `setConfig` of `config.ts`: serializes and writes the whole file. -/
def setConfig (w : World) (c : CLIConfig) : World := { w with config := some c }

/-- `getGlobalAuthType` of `auth.ts`: the configured auth type, defaulting
to OAuth when the config cannot be read or the field is unset. -/
def getGlobalAuthType (w : World) : AuthType :=
  match w.config with
  | some c => c.authtype
  | none => .oauth

/-- JavaScript truthiness of an optional string: absent and empty are falsy. -/
def jsTruthy : Option String → Bool
  | some s => !s.isEmpty
  | none => false

/-- The structured `{success, error?}` result the registry operations return. -/
structure OpResult where
  success : Bool
  error : Option String
deriving DecidableEq

/-- `config.environments[name] = value`: replace the binding in place when
the key exists, append it otherwise (JavaScript object assignment keeps the
original insertion position of an existing key). -/
def envUpsert (l : List (String × EnvConfig)) (name : String) (v : EnvConfig) :
    List (String × EnvConfig) :=
  if l.any (fun p => p.1 = name) then l.map fun p => if p.1 = name then (name, v) else p
  else l ++ [(name, v)]

/-- `Object.keys(config.environments)`. -/
def envKeys (l : List (String × EnvConfig)) : List String := l.map Prod.fst

/-- The update request of `updateEnvironment` (`UpdateEnvironmentRequest`). -/
structure UpdateEnvironmentRequest where
  environmentName : String
  tenantUrl : String
  baseUrl : String
  authType : AuthType
  clientId : Option String
  clientSecret : Option String

/-- `updateEnvironment` of `config.ts`: reads the config (creating a default
in memory when the file is unreadable), upserts the environment's URLs, sets
the global auth type and the active environment, stores the credential pair
when both are (truthily) supplied, and finally writes the config file. A
thrown error -- in this model only the Secret Store's encryption-unavailable
error -- is caught and returned as a failure before the config is written. -/
def updateEnvironment (w : World) (req : UpdateEnvironmentRequest) : World × OpResult :=
  let config0 : CLIConfig :=
    match w.config with
    | some c => c
    | none => ⟨.oauth, "", []⟩
  let config : CLIConfig :=
    { authtype := req.authType
      activeenvironment := req.environmentName
      environments := envUpsert config0.environments req.environmentName
        ⟨req.tenantUrl, req.baseUrl⟩ }
  if jsTruthy req.clientId && jsTruthy req.clientSecret then
    match setSecureValue w "environments.pat.clientid" req.environmentName
        (req.clientId.getD "") with
    | (w1, .error e) => (w1, ⟨false, some e⟩)
    | (w1, .ok _) =>
      match setSecureValue w1 "environments.pat.clientsecret" req.environmentName
          (req.clientSecret.getD "") with
      | (w2, .error e) => (w2, ⟨false, some e⟩)
      | (w2, .ok _) => (setConfig w2 config, ⟨true, none⟩)
  else (setConfig w config, ⟨true, none⟩)

/-- The four service-credential (PAT) secret keys, in the order
`deleteEnvironment` purges them. -/
def patSecretKeys : List String :=
  ["environments.pat.clientid", "environments.pat.clientsecret",
   "environments.pat.accesstoken", "environments.pat.expiry"]

/-- The four delegated (OAuth) secret keys, in the order `deleteEnvironment`
purges them. -/
def oauthSecretKeys : List String :=
  ["environments.oauth.accesstoken", "environments.oauth.expiry",
   "environments.oauth.refreshtoken", "environments.oauth.refreshexpiry"]

/-- All eight secret keys associated with an environment. -/
def allSecretKeys : List String := patSecretKeys ++ oauthSecretKeys

/-- `deleteEnvironment` of `config.ts`: fails when the name is not in the
registry; otherwise removes the entry, reassigns the active environment only
if it pointed at the deleted name (to the first remaining key, or the empty
string), purges all eight secret files, and writes the config. -/
def deleteEnvironment (w : World) (environmentName : String) : World × OpResult :=
  match w.config with
  | none => (w, ⟨false, some "Error reading config file"⟩)
  | some config =>
    if !(config.environments.any fun p => p.1 = environmentName) then
      (w, ⟨false, some ("Environment " ++ environmentName ++ " does not exist")⟩)
    else
      let envs := config.environments.filter fun p => p.1 ≠ environmentName
      let active :=
        if config.activeenvironment = environmentName then
          match envKeys envs with
          | e :: _ => e
          | [] => ""
        else config.activeenvironment
      let w1 := allSecretKeys.foldl (fun acc k => deleteSecureValue acc k environmentName) w
      (setConfig w1 ⟨config.authtype, active, envs⟩, ⟨true, none⟩)

/-! ### Credential flows (`pat.ts`, `oauth.ts`) and the unified refresh

Network requests are modelled by an explicit `FetchResult` oracle; each flow
reports how many network calls it issued, which the single-network-call and
zero-network-call properties are stated against. -/

/-- `Date.prototype.toISOString`: throws a `RangeError` on an Invalid Date;
the textual format is modelled by an injective stand-in, no caller inspects
it. -/
def jsDateToISO : JsDate → Except String String
  | none => .error "RangeError: Invalid time value"
  | some ms => .ok (toString ms ++ "Z")

/-- `new Date(string)`: a millisecond value for the numeral strings this
development round-trips, Invalid otherwise. No claim inspects the parsed
value. -/
def jsParseDate (s : String) : JsDate :=
  match s.toList with
  | [] => none
  | '-' :: ds => if ds ≠ [] ∧ ds.all Char.isDigit then some (-(digitsVal ds : Int)) else none
  | ds => if ds.all Char.isDigit then some (digitsVal ds) else none

/-- The stored service-credential token set
(`getStoredPATTokens`' result shape in `pat.ts`). -/
structure PatTokens where
  accessToken : String
  accessExpiry : JsDate
  clientId : String
  clientSecret : String

/-- `getStoredPATTokens` of `pat.ts`: reads the four PAT secrets; the client
identifier and secret are the bare minimum, otherwise the set is just not
configured. -/
def getStoredPATTokens (w : World) (environment : String) : Option PatTokens :=
  let accessToken := getSecureValue w "environments.pat.accesstoken" environment
  let accessExpiry := getSecureValue w "environments.pat.expiry" environment
  let clientId := getSecureValue w "environments.pat.clientid" environment
  let clientSecret := getSecureValue w "environments.pat.clientsecret" environment
  if clientId.isEmpty || clientSecret.isEmpty then none
  else some ⟨accessToken, jsParseDate accessExpiry, clientId, clientSecret⟩

/-- `storePATTokens` of `pat.ts`: writes the derived access token, then its
expiry (whose `toISOString` throws on an Invalid Date, after the first write
already happened). -/
def storePATTokens (w : World) (environment : String) (accessToken : String)
    (accessExpiry : JsDate) : World × Except String Unit :=
  match setSecureValue w "environments.pat.accesstoken" environment accessToken with
  | (w1, .error e) => (w1, .error e)
  | (w1, .ok _) =>
    match jsDateToISO accessExpiry with
    | .error e => (w1, .error e)
    | .ok iso =>
      match setSecureValue w1 "environments.pat.expiry" environment iso with
      | (w2, .error e) => (w2, .error e)
      | (w2, .ok _) => (w2, .ok ())

/-- The JSON body of a token-endpoint response. -/
structure TokenBody where
  access_token : Option String
  refresh_token : Option String

/-- Outcome of one `fetch` to a token endpoint: a transport error (the
promise rejects) or a response with its `ok` flag, status and parsed body. -/
inductive FetchResult where
  | netError (msg : String) : FetchResult
  | resp (ok : Bool) (status : Nat) (body : TokenBody) : FetchResult

/-- `refreshPATToken` of `pat.ts`: requires stored credentials and an
environment entry, posts a client-credentials grant to
`{baseurl}/oauth/token`, and on success stores the new access token and its
expiry derived from the token's claims. The third component counts network
calls issued. -/
def refreshPATToken (w : World) (environment : String) (fetch : FetchResult) :
    World × Except String Unit × Nat :=
  match getStoredPATTokens w environment with
  | none => (w, .error "No stored PAT tokens found for environment", 0)
  | some _pt =>
    match w.config with
    | none => (w, .error "Error reading config file", 0)
    | some config =>
      match config.environments.find? (fun p => p.1 = environment) with
      | none => (w, .error "Environment configuration not found", 0)
      | some _env =>
        match fetch with
        | .netError m => (w, .error m, 1)
        | .resp ok status body =>
          if !ok then (w, .error ("Token refresh failed: " ++ toString status), 1)
          else
            match body.access_token with
            | none => (w, .error "TypeError: access_token missing", 1)
            | some tok =>
              match parseJwt tok with
              | .error e => (w, .error e, 1)
              | .ok claims =>
                let (w1, r) := storePATTokens w environment tok (tokenExpiryDate claims)
                (w1, r, 1)

/-- The stored delegated token set (`TokenSet` in `types.ts`). -/
structure TokenSet where
  accessToken : String
  accessExpiry : JsDate
  refreshToken : Option String
  refreshExpiry : Option JsDate

/-- `getStoredOAuthTokens` of `oauth.ts`: reads the four OAuth secrets and
requires all four to be non-empty. -/
def getStoredOAuthTokens (w : World) (environment : String) : Option TokenSet :=
  let accessToken := getSecureValue w "environments.oauth.accesstoken" environment
  let accessExpiry := getSecureValue w "environments.oauth.expiry" environment
  let refreshToken := getSecureValue w "environments.oauth.refreshtoken" environment
  let refreshExpiry := getSecureValue w "environments.oauth.refreshexpiry" environment
  if accessToken.isEmpty || accessExpiry.isEmpty || refreshToken.isEmpty ||
      refreshExpiry.isEmpty then none
  else some ⟨accessToken, jsParseDate accessExpiry, some refreshToken,
    some (jsParseDate refreshExpiry)⟩

/-- `storeOAuthTokens` of `oauth.ts`: rejects a set without refresh token or
refresh expiry, then writes the four secrets in order; `toISOString` on an
Invalid Date throws midway, leaving earlier writes in place. -/
def storeOAuthTokens (w : World) (environment : String) (ts : TokenSet) :
    World × Except String Unit :=
  if !jsTruthy ts.refreshToken || ts.refreshExpiry.isNone then
    (w, .error "Invalid token set, missing refresh token or expiry")
  else
    match setSecureValue w "environments.oauth.accesstoken" environment ts.accessToken with
    | (w1, .error e) => (w1, .error e)
    | (w1, .ok _) =>
      match jsDateToISO ts.accessExpiry with
      | .error e => (w1, .error e)
      | .ok iso1 =>
        match setSecureValue w1 "environments.oauth.expiry" environment iso1 with
        | (w2, .error e) => (w2, .error e)
        | (w2, .ok _) =>
          match setSecureValue w2 "environments.oauth.refreshtoken" environment
              (ts.refreshToken.getD "") with
          | (w3, .error e) => (w3, .error e)
          | (w3, .ok _) =>
            match jsDateToISO (ts.refreshExpiry.getD none) with
            | .error e => (w3, .error e)
            | .ok iso2 =>
              match setSecureValue w3 "environments.oauth.refreshexpiry" environment iso2 with
              | (w4, .error e) => (w4, .error e)
              | (w4, .ok _) => (w4, .ok ())

/-- The `{isValid, needsRefresh}` view the validators return. -/
structure ValidationResult where
  isValid : Bool
  needsRefresh : Bool
deriving DecidableEq

/-- The body of the `try` block of `validateOAuthTokens` in `oauth.ts`:
no stored set reports invalid without refresh; an expired refresh token
reports invalid without refresh (a whole new session is needed); an access
token expiring within five minutes reports invalid and needing refresh;
otherwise the set is valid. -/
def validateOAuthTokensTry (w : World) (environment : String) (now : Int) :
    Except String ValidationResult :=
  match getStoredOAuthTokens w environment with
  | none => .ok ⟨false, false⟩
  | some ts =>
    if !jsTruthy ts.refreshToken || ts.refreshExpiry.isNone then .ok ⟨false, false⟩
    else
      match getTokenDetails (ts.refreshToken.getD "") with
      | .error e => .error e
      | .ok rd =>
        if jsLt rd.expiry (some now) then .ok ⟨false, false⟩
        else
          match getTokenDetails ts.accessToken with
          | .error e => .error e
          | .ok ad =>
            if jsLe ad.expiry (some (now + 5 * 60 * 1000)) then .ok ⟨false, true⟩
            else .ok ⟨true, false⟩

/-- `validateOAuthTokens` of `oauth.ts`; thrown errors are caught and report
invalid without refresh. -/
def validateOAuthTokens (w : World) (environment : String) (now : Int) : ValidationResult :=
  match validateOAuthTokensTry w environment now with
  | .ok r => r
  | .error _ => ⟨false, false⟩

/-- `refreshOAuthToken` of `oauth.ts`: requires the environment entry and a
stored token set, posts the stored refresh token to the refresh endpoint,
and on success parses and stores the full new token pair. The third
component counts network calls issued. -/
def refreshOAuthToken (w : World) (environment : String) (fetch : FetchResult) :
    World × Except String Unit × Nat :=
  match w.config with
  | none => (w, .error "Error reading config file", 0)
  | some config =>
    match config.environments.find? (fun p => p.1 = environment) with
    | none => (w, .error "Environment configuration not found", 0)
    | some _env =>
      match getStoredOAuthTokens w environment with
      | none => (w, .error "No stored OAuth tokens found for environment", 0)
      | some _ts =>
        match fetch with
        | .netError m => (w, .error m, 1)
        | .resp ok status body =>
          if !ok then (w, .error ("Lambda refresh failed: " ++ toString status), 1)
          else if !jsTruthy body.access_token then
            (w, .error "No access token in refresh response", 1)
          else if !jsTruthy body.refresh_token then
            (w, .error "No refresh token in refresh response", 1)
          else
            match parseJwt (body.access_token.getD "") with
            | .error e => (w, .error e, 1)
            | .ok aj =>
              match parseJwt (body.refresh_token.getD "") with
              | .error e => (w, .error e, 1)
              | .ok rj =>
                let (w1, r) := storeOAuthTokens w environment
                  ⟨body.access_token.getD "", tokenExpiryDate aj,
                    body.refresh_token, some (tokenExpiryDate rj)⟩
                (w1, r, 1)

/-- `refreshTokens` of `auth.ts`: dispatches on the global auth type. In the
OAuth case a missing set or refresh token fails immediately, and an expired
refresh token -- checked locally through the Token Codec -- fails with
"Refresh token has expired" before any network call; otherwise the matching
flow's refresh runs and thrown errors are caught into a failure result. The
third component counts network calls issued. -/
def refreshTokens (w : World) (environment : String) (now : Int) (fetch : FetchResult) :
    World × OpResult × Nat :=
  match getGlobalAuthType w with
  | .oauth =>
    match getStoredOAuthTokens w environment with
    | none => (w, ⟨false, some "No refresh token available for OAuth refresh"⟩, 0)
    | some ts =>
      if !jsTruthy ts.refreshToken then
        (w, ⟨false, some "No refresh token available for OAuth refresh"⟩, 0)
      else
        match checkTokenExpired (ts.refreshToken.getD "") now with
        | .error e => (w, ⟨false, some ("Error refreshing tokens: " ++ e)⟩, 0)
        | .ok true => (w, ⟨false, some "Refresh token has expired"⟩, 0)
        | .ok false =>
          match refreshOAuthToken w environment fetch with
          | (w1, .ok _, n) => (w1, ⟨true, none⟩, n)
          | (w1, .error e, n) => (w1, ⟨false, some ("Error refreshing tokens: " ++ e)⟩, n)
  | .pat =>
    match refreshPATToken w environment fetch with
    | (w1, .ok _, n) => (w1, ⟨true, none⟩, n)
    | (w1, .error e, n) => (w1, ⟨false, some ("Error refreshing tokens: " ++ e)⟩, n)

/-! ### PKCS#7 unpadding in `decryptTokenInfo` (`oauth.ts`)

The manual padding-removal block runs on the buffer produced by the
AES-256-CBC decipher (with auto-padding disabled); it is a pure function of
those decrypted bytes. -/

/-- The padding-removal step of `decryptTokenInfo`: when the buffer is
non-empty, its last byte is in `[1, 16]`, is no longer than the buffer, and
all of the last `paddingLen` bytes equal `paddingLen`, those bytes are
stripped; otherwise the buffer passes through untouched (tolerating
already-unpadded payloads instead of erroring). -/
def stripPkcs7 (decrypted : List Nat) : List Nat :=
  if decrypted.length > 0 then
    let paddingLen := decrypted.getLastD 0
    if 0 < paddingLen ∧ paddingLen ≤ 16 ∧ paddingLen ≤ decrypted.length then
      if (decrypted.drop (decrypted.length - paddingLen)).all (· == paddingLen) then
        decrypted.take (decrypted.length - paddingLen)
      else decrypted
    else decrypted
  else decrypted

example : stripPkcs7 [10, 11, 2, 2] = [10, 11] := by rfl
example : stripPkcs7 [10, 11, 3, 2] = [10, 11, 3, 2] := by rfl
example : stripPkcs7 [10, 11, 0] = [10, 11, 0] := by rfl

/-! ### The single-flight refresh guard (`ConnectionService.refreshSession`)

The renderer's `refreshSession` is guarded by the in-memory
`isSessionRefreshing` flag. The JavaScript runtime never preempts between
awaits, so each invocation is a sequence of atomic segments:

  * from entry through the flag check -- an early `return` (after logging
    "Session refresh already in progress") when the flag is set, otherwise
    setting the flag and issuing the `refreshTokens` IPC round trip;
  * after the round trip resolves: processing its result (the stored token
    set was mutated during the round trip exactly when the refresh
    succeeded) and clearing the flag in the `finally` block.

A system state is the shared flag, the number of network round trips
issued, the number of stored-token-set mutations, and each concurrent
caller's phase; a schedule interleaves the callers' segments arbitrarily. -/

/-- Phase of one caller of `refreshSession`: not yet entered; awaiting its
in-flight round trip; returned early because a refresh was in progress; or
completed its own refresh. -/
inductive Phase where
  | idle : Phase
  | inflight : Phase
  | doneEarly : Phase
  | doneFull : Phase
deriving DecidableEq

/-- Shared state of the concurrent callers of `refreshSession`. -/
structure RefreshSys where
  flag : Bool
  netCalls : Nat
  muts : Nat
  tasks : List Phase
deriving DecidableEq

/-- Runs one atomic segment of caller `i` (out-of-range indices are no-ops);
`outcomes i` tells whether caller `i`'s refresh round trip succeeds. -/
def stepAt (outcomes : Nat → Bool) (sys : RefreshSys) (i : Nat) : RefreshSys :=
  match sys.tasks.get? i with
  | some .idle =>
    if sys.flag then { sys with tasks := sys.tasks.set i .doneEarly }
    else
      { sys with
          flag := true
          netCalls := sys.netCalls + 1
          tasks := sys.tasks.set i .inflight }
  | some .inflight =>
    { sys with
        flag := false
        muts := sys.muts + (if outcomes i then 1 else 0)
        tasks := sys.tasks.set i .doneFull }
  | _ => sys

/-- Runs a schedule of caller segments from a state. -/
def runSched (outcomes : Nat → Bool) (sys : RefreshSys) : List Nat → RefreshSys
  | [] => sys
  | i :: rest => runSched outcomes (stepAt outcomes sys i) rest

/-- `n` callers about to invoke `refreshSession`, no refresh in flight. -/
def initSys (n : Nat) : RefreshSys := ⟨false, 0, 0, List.replicate n .idle⟩

/-- How many callers are currently awaiting a refresh round trip. -/
def countInflight (sys : RefreshSys) : Nat := sys.tasks.countP (· == Phase.inflight)

/-! ### Helper lemmas -/

/-- A stored OAuth token set always carries a truthy refresh token and a
present refresh expiry: `getStoredOAuthTokens` rejects empty values. -/
theorem getStoredOAuthTokens_refresh_present (w : World) (environment : String)
    (ts : TokenSet) (h : getStoredOAuthTokens w environment = some ts) :
    jsTruthy ts.refreshToken = true ∧ ts.refreshExpiry.isSome = true := by
  unfold getStoredOAuthTokens at h
  dsimp only at h
  split at h
  · exact absurd h (by simp)
  · rename_i hcond
    simp only [Bool.or_eq_true, not_or] at hcond
    cases h
    refine ⟨?_, rfl⟩
    simp only [jsTruthy]
    simpa using hcond.1.2

/-! ### Claim C3 -/

/-- Claim C3: for every `(key, environment)` pair, `getSecureValue` never
throws (it is a total `String`-valued function, the catch block converting
every internal error to the empty string) and returns the empty string both
when the secret file does not exist and when decryption of an existing file
fails -- so callers cannot distinguish an absent value from a corrupt one. -/
theorem getSecureValue_absent_or_corrupt (w : World) (key environment : String) :
    (w.secrets (secretFileName key environment) = none →
      getSecureValue w key environment = "") ∧
    (w.secrets (secretFileName key environment) = some .corrupt →
      getSecureValue w key environment = "") := by
  constructor <;> intro h <;>
    · unfold getSecureValue getSecureTry
      cases henc : w.encAvailable <;> simp [henc, h]

/-- A world with no secret files. -/
def wSecAbsent : World := ⟨none, fun _ => none, true⟩

/-- A world where the file for `("k", "e")` exists but cannot be decrypted. -/
def wSecCorrupt : World :=
  ⟨none, fun f => if f = secretFileName "k" "e" then some .corrupt else none, true⟩

/-- Witness for C3: both the never-written case and the corrupt-file case at
concrete inputs. -/
theorem getSecureValue_absent_or_corrupt_witness :
    (wSecAbsent.secrets (secretFileName "k" "e") = none ∧
      getSecureValue wSecAbsent "k" "e" = "") ∧
    (wSecCorrupt.secrets (secretFileName "k" "e") = some .corrupt ∧
      getSecureValue wSecCorrupt "k" "e" = "") :=
  ⟨⟨rfl, (getSecureValue_absent_or_corrupt wSecAbsent "k" "e").1 rfl⟩,
   ⟨by decide, (getSecureValue_absent_or_corrupt wSecCorrupt "k" "e").2 (by decide)⟩⟩

/-! ### Claim C6 -/

/-- Claim C6: for every decrypted buffer, when the buffer is non-empty and
its last byte `n` satisfies `1 ≤ n ≤ 16`, `n` is at most the buffer length,
and the last `n` bytes all equal `n`, the padding-removal step of
`decryptTokenInfo` strips exactly those `n` bytes; in every other case
(empty buffer, out-of-range pad byte, or mismatched pad bytes) the buffer is
returned untouched rather than raising an error. -/
theorem stripPkcs7_spec (buf : List Nat) (n : Nat) (hn : n = buf.getLastD 0) :
    (buf ≠ [] → 1 ≤ n → n ≤ 16 → n ≤ buf.length →
      (buf.drop (buf.length - n)).all (· == n) = true →
      stripPkcs7 buf = buf.take (buf.length - n)) ∧
    ((buf = [] ∨
        ¬(1 ≤ n ∧ n ≤ 16 ∧ n ≤ buf.length ∧
          (buf.drop (buf.length - n)).all (· == n) = true)) →
      stripPkcs7 buf = buf) := by
  constructor
  · intro hne h1 h16 hlen hall
    have hpos : buf.length > 0 := List.length_pos.mpr hne
    unfold stripPkcs7
    rw [if_pos hpos]
    dsimp only
    rw [← hn, if_pos ⟨h1, h16, hlen⟩, if_pos hall]
  · rintro (rfl | hbad)
    · rfl
    · by_cases hemp : buf = []
      · subst hemp; rfl
      · have hpos : buf.length > 0 := List.length_pos.mpr hemp
        unfold stripPkcs7
        rw [if_pos hpos]
        dsimp only
        rw [← hn]
        by_cases hcond : 0 < n ∧ n ≤ 16 ∧ n ≤ buf.length
        · have hallne : ¬((buf.drop (buf.length - n)).all (· == n) = true) := by
            intro hall
            exact hbad ⟨hcond.1, hcond.2.1, hcond.2.2, hall⟩
          rw [if_pos hcond, if_neg hallne]
        · rw [if_neg hcond]

/-- Witness for C6: a correctly padded buffer is stripped, a buffer with a
mismatched pad byte passes through. -/
theorem stripPkcs7_spec_witness :
    ((2 : Nat) = [10, 11, 2, 2].getLastD 0 ∧ stripPkcs7 [10, 11, 2, 2] = [10, 11]) ∧
    stripPkcs7 [10, 11, 3, 2] = [10, 11, 3, 2] :=
  ⟨⟨rfl, by
      have h := (stripPkcs7_spec [10, 11, 2, 2] 2 rfl).1
      simpa using h (by decide) (by decide) (by decide) (by decide) (by decide)⟩,
    (stripPkcs7_spec [10, 11, 3, 2] 2 rfl).2 (Or.inr (by decide))⟩

/-! ### Claim C1 -/

/-- Claim C1: for every environment whose stored delegated token set has a
refresh token whose claims show an expiry in the past (as computed by the
Token Codec's `checkTokenExpired`), `refreshTokens` fails immediately with
the "Refresh token has expired" error, leaves the world untouched, and makes
zero network calls -- the conclusion holds for every value of the network
oracle because the request is never issued. -/
theorem refreshTokens_expiredRefresh (w : World) (environment : String) (now : Int)
    (fetch : FetchResult) (ts : TokenSet)
    (hauth : getGlobalAuthType w = .oauth)
    (hts : getStoredOAuthTokens w environment = some ts)
    (hexp : checkTokenExpired (ts.refreshToken.getD "") now = .ok true) :
    refreshTokens w environment now fetch =
      (w, ⟨false, some "Refresh token has expired"⟩, 0) := by
  have htruthy := (getStoredOAuthTokens_refresh_present w environment ts hts).1
  unfold refreshTokens
  rw [hauth]
  simp [hts, htruthy, hexp]

/-- A compact token whose claims show `exp` one second after the epoch. -/
def expiredJwt : String := mkJwt "h" "\x7b\"exp\":1\x7d" "s"

/-- A compact token whose claims show `exp` far in the future. -/
def farFutureJwt : String := mkJwt "h" "\x7b\"exp\":2000000000\x7d" "s"

/-- Secret files holding the four delegated values of one environment. -/
def oauthSecretsFor (env atok rtok : String) : String → Option SecretFile := fun f =>
  if f = secretFileName "environments.oauth.accesstoken" env then some (.enc atok)
  else if f = secretFileName "environments.oauth.expiry" env then some (.enc "1000")
  else if f = secretFileName "environments.oauth.refreshtoken" env then some (.enc rtok)
  else if f = secretFileName "environments.oauth.refreshexpiry" env then some (.enc "1000")
  else none

/-- A world in OAuth mode whose stored refresh token for `prod` is expired. -/
def wExpired : World :=
  ⟨some ⟨.oauth, "prod", [("prod", ⟨"https://tenant", "https://api"⟩)]⟩,
    oauthSecretsFor "prod" expiredJwt expiredJwt, true⟩

/-- The token set `getStoredOAuthTokens` reads back from `wExpired`. -/
def tsExpired : TokenSet := ⟨expiredJwt, some 1000, some expiredJwt, some (some 1000)⟩

/-- Witness for C1: at a concrete world with an expired stored refresh
token, `refreshTokens` reports the expiry error, changes nothing, and issues
zero network calls. -/
theorem refreshTokens_expiredRefresh_witness :
    getGlobalAuthType wExpired = .oauth ∧
    getStoredOAuthTokens wExpired "prod" = some tsExpired ∧
    checkTokenExpired (tsExpired.refreshToken.getD "") 1700000000000 = .ok true ∧
    refreshTokens wExpired "prod" 1700000000000 (.netError "no request issued") =
      (wExpired, ⟨false, some "Refresh token has expired"⟩, 0) :=
  ⟨rfl, by rfl, by rfl,
    refreshTokens_expiredRefresh wExpired "prod" 1700000000000
      (.netError "no request issued") tsExpired rfl (by rfl) (by rfl)⟩

/-! ### Claim C10 -/

/-- Claim C10: for every environment whose stored delegated token set exists
and whose refresh token is unexpired, `validateOAuthTokens` reports
`isValid = false` and `needsRefresh = true` whenever the access token's
expiry is at most five minutes after the current time -- the early-refresh
window treats a token as needing refresh up to five minutes before it
actually expires (including when it is already expired). -/
theorem validateOAuthTokens_earlyRefreshWindow (w : World) (environment : String)
    (now rexp aexp : Int) (ts : TokenSet) (rt : String) (rd ad : TokenDetails)
    (hts : getStoredOAuthTokens w environment = some ts)
    (hrt : ts.refreshToken = some rt)
    (hrd : getTokenDetails rt = .ok rd)
    (hrexp : rd.expiry = some rexp)
    (hrunexp : now ≤ rexp)
    (had : getTokenDetails ts.accessToken = .ok ad)
    (haexp : ad.expiry = some aexp)
    (hwin : aexp ≤ now + 5 * 60 * 1000) :
    validateOAuthTokens w environment now = ⟨false, true⟩ := by
  obtain ⟨htruthy, hre⟩ := getStoredOAuthTokens_refresh_present w environment ts hts
  have hre' : ts.refreshExpiry.isNone = false := by
    cases hx : ts.refreshExpiry
    · rw [hx] at hre; simp at hre
    · simp
  have htruthy' : jsTruthy (some rt) = true := hrt ▸ htruthy
  have h1 : jsLt rd.expiry (some now) = false := by
    rw [hrexp]
    simp only [jsLt, decide_eq_false_iff_not]
    omega
  have h2 : jsLe ad.expiry (some (now + 300000)) = true := by
    rw [haexp]
    simp only [jsLe, decide_eq_true_eq]
    omega
  unfold validateOAuthTokens validateOAuthTokensTry
  rw [hts]
  simp [htruthy, htruthy', hre', hrt, hrd, h1, had, h2]

/-- A world in OAuth mode for `prod` whose stored access token expired at
the one-second mark while the refresh token is still far from expiry. -/
def wWindow : World :=
  ⟨some ⟨.oauth, "prod", [("prod", ⟨"https://tenant", "https://api"⟩)]⟩,
    oauthSecretsFor "prod" expiredJwt farFutureJwt, true⟩

/-- The token set `getStoredOAuthTokens` reads back from `wWindow`. -/
def tsWindow : TokenSet := ⟨expiredJwt, some 1000, some farFutureJwt, some (some 1000)⟩

/-- Witness for C10 at a concrete world: an access token inside the
five-minute window (here: already expired) with an unexpired refresh token
reports invalid-and-needs-refresh. -/
theorem validateOAuthTokens_earlyRefreshWindow_witness :
    getStoredOAuthTokens wWindow "prod" = some tsWindow ∧
    tsWindow.refreshToken = some farFutureJwt ∧
    getTokenDetails farFutureJwt =
      .ok ⟨some 2000000000000, .obj [("exp", .num 2000000000)]⟩ ∧
    (1000000 : Int) ≤ 2000000000 * 1000 ∧
    getTokenDetails tsWindow.accessToken = .ok ⟨some 1000, .obj [("exp", .num 1)]⟩ ∧
    (1000 : Int) ≤ 1000000 + 5 * 60 * 1000 ∧
    validateOAuthTokens wWindow "prod" 1000000 = ⟨false, true⟩ :=
  ⟨by rfl, rfl, by rfl, by decide, by rfl, by decide,
    validateOAuthTokens_earlyRefreshWindow wWindow "prod" 1000000 2000000000000 1000
      tsWindow farFutureJwt ⟨some 2000000000000, .obj [("exp", .num 2000000000)]⟩
      ⟨some 1000, .obj [("exp", .num 1)]⟩
      (by rfl) rfl (by rfl) rfl (by decide) (by rfl) rfl (by decide)⟩

/-! ### Claim C4 -/

/-- A world with encryption unavailable and one stored secret file. -/
def wNoEnc : World :=
  ⟨none, fun f => if f = secretFileName "k" "e" then some (.enc "stored-secret") else none,
    false⟩

/-- Counterexample to C4 as stated: when the platform encryption facility is
unavailable, `getSecureValue` does not propagate any error to its caller.
Its internal try-block does throw the encryption-unavailable error, but the
function's own catch converts it into a normal empty-string return -- even
though an encrypted value is present on disk. Only `setSecureValue`
rethrows. -/
theorem getSecureValue_encUnavailable_counterexample :
    wNoEnc.encAvailable = false ∧
    getSecureTry wNoEnc "k" "e" = .error "Encryption not available" ∧
    getSecureValue wNoEnc "k" "e" = "" ∧
    (setSecureValue wNoEnc "k" "e" "v").2 = .error "Encryption not available" :=
  ⟨rfl, by rfl, by rfl, by rfl⟩

/-- Claim C4 (amended): the write path fails fatally exactly when the
platform encryption facility reports itself unavailable -- `setSecureValue`
propagates an error to its caller iff encryption is unavailable, writing
nothing in that case -- while `getSecureValue` never propagates: with
encryption unavailable it reports the error (dialog and log) and returns the
empty string through its normal return path. -/
theorem secretStore_encUnavailable (w : World) (key environment value : String) :
    ((setSecureValue w key environment value).2.isOk = w.encAvailable) ∧
    (w.encAvailable = false →
      (setSecureValue w key environment value).1 = w ∧
      getSecureValue w key environment = "") := by
  constructor
  · cases h : w.encAvailable <;> simp [setSecureValue, h, Except.isOk, Except.toBool]
  · intro h
    exact ⟨by simp [setSecureValue, h], by simp [getSecureValue, getSecureTry, h]⟩

/-- Witness for C4 (amended): at a concrete unavailable-encryption world the
write path fails, nothing is written, and the read path returns the empty
string. -/
theorem secretStore_encUnavailable_witness :
    ((setSecureValue wNoEnc "k" "e" "v").2.isOk = wNoEnc.encAvailable) ∧
    (wNoEnc.encAvailable = false ∧
      (setSecureValue wNoEnc "k" "e" "v").1 = wNoEnc ∧
      getSecureValue wNoEnc "k" "e" = "") :=
  ⟨(secretStore_encUnavailable wNoEnc "k" "e" "v").1,
    rfl,
    (secretStore_encUnavailable wNoEnc "k" "e" "v").2 rfl⟩

/-! ### Claim C2 -/

/-- Deleting every key of a list of secret keys: the file of each named key
is gone, all other files are untouched. -/
theorem foldl_deleteSecureValue_secrets (keys : List String) (w : World)
    (env f : String) :
    (keys.foldl (fun acc k => deleteSecureValue acc k env) w).secrets f =
      if keys.any (fun k => f = secretFileName k env) then none else w.secrets f := by
  induction keys generalizing w with
  | nil => simp
  | cons k ks ih =>
    simp only [List.foldl_cons, List.any_cons, ih]
    by_cases h : f = secretFileName k env <;> simp [deleteSecureValue, secretsErase, h]

/-- Deleting secret files touches neither the config nor the encryption
availability. -/
theorem foldl_deleteSecureValue_rest (keys : List String) (w : World) (env : String) :
    (keys.foldl (fun acc k => deleteSecureValue acc k env) w).config = w.config ∧
    (keys.foldl (fun acc k => deleteSecureValue acc k env) w).encAvailable =
      w.encAvailable := by
  induction keys generalizing w with
  | nil => exact ⟨rfl, rfl⟩
  | cons k ks ih => simpa [deleteSecureValue] using ih (deleteSecureValue w k env)

/-- A three-environment registry whose active environment is `C`. -/
def envA : EnvConfig := ⟨"https://tenant-a", "https://api-a"⟩

/-- A world with environments `A`, `B`, `C` and `C` active. -/
def wThree : World :=
  ⟨some ⟨.oauth, "C", [("A", envA), ("B", envA), ("C", envA)]⟩, fun _ => none, true⟩

/-- Counterexample to C2 as stated: deleting environment `A`, which is not
the active environment, leaves the active environment `C` untouched, while
the claim's unconditional "reassigns the active environment to the first
remaining environment in iteration order" would require it to become `B`. -/
theorem deleteEnvironment_counterexample :
    (deleteEnvironment wThree "A").1.config =
      some ⟨.oauth, "C", [("B", envA), ("C", envA)]⟩ ∧
    envKeys [("B", envA), ("C", envA)] = ["B", "C"] ∧ ("C" : String) ≠ "B" :=
  ⟨by rfl, rfl, by decide⟩

/-- Claim C2 (amended): `deleteEnvironment` fails with a not-found error
when the name is absent from the registry; otherwise it removes exactly that
environment's entry (preserving the others in order), reassigns the active
environment to the first remaining environment -- or clears it to the empty
string -- only when the deleted name was the active one (leaving it
untouched otherwise), and deletes all eight secret files for that name
(four service-credential and four delegated) regardless of auth mode, while
leaving every other secret file in place. -/
theorem deleteEnvironment_spec (w : World) (cfg : CLIConfig) (name : String)
    (hcfg : w.config = some cfg) :
    ((cfg.environments.any fun p => p.1 = name) = false →
      deleteEnvironment w name =
        (w, ⟨false, some ("Environment " ++ name ++ " does not exist")⟩)) ∧
    ((cfg.environments.any fun p => p.1 = name) = true →
      (deleteEnvironment w name).2 = ⟨true, none⟩ ∧
      ∃ cfg2, (deleteEnvironment w name).1.config = some cfg2 ∧
        cfg2.environments = (cfg.environments.filter fun p => p.1 ≠ name) ∧
        cfg2.authtype = cfg.authtype ∧
        (cfg.activeenvironment = name →
          cfg2.activeenvironment = (envKeys cfg2.environments).headD "") ∧
        (cfg.activeenvironment ≠ name →
          cfg2.activeenvironment = cfg.activeenvironment) ∧
        (∀ k ∈ allSecretKeys,
          (deleteEnvironment w name).1.secrets (secretFileName k name) = none) ∧
        (∀ f, (∀ k ∈ allSecretKeys, f ≠ secretFileName k name) →
          (deleteEnvironment w name).1.secrets f = w.secrets f)) := by
  constructor
  · intro habs
    unfold deleteEnvironment
    rw [hcfg]
    simp [habs]
  · intro hpres
    unfold deleteEnvironment
    rw [hcfg]
    simp only [hpres, Bool.not_true, if_neg (by simp : ¬ (false = true))]
    refine ⟨trivial, _, rfl, rfl, rfl, ?_, ?_, ?_, ?_⟩
    · intro hact
      rw [if_pos hact]
      cases h : envKeys (cfg.environments.filter fun p => decide (p.1 ≠ name)) <;> simp [h]
    · intro hact
      rw [if_neg hact]
    · intro k hk
      simp only [setConfig]
      rw [foldl_deleteSecureValue_secrets, if_pos]
      exact List.any_eq_true.mpr ⟨k, hk, by simp⟩
    · intro f hf
      simp only [setConfig]
      rw [foldl_deleteSecureValue_secrets, if_neg]
      simp only [List.any_eq_true, not_exists, not_and]
      intro k hk
      simpa using hf k hk

/-- Witness for C2 (amended): deleting the active environment `C` of a
concrete three-environment registry. -/
theorem deleteEnvironment_spec_witness :
    wThree.config = some ⟨.oauth, "C", [("A", envA), ("B", envA), ("C", envA)]⟩ ∧
    (([("A", envA), ("B", envA), ("C", envA)] : List (String × EnvConfig)).any
      fun p => p.1 = "C") = true ∧
    ((deleteEnvironment wThree "C").2 = ⟨true, none⟩ ∧
      ∃ cfg2, (deleteEnvironment wThree "C").1.config = some cfg2 ∧
        cfg2.environments =
          (([("A", envA), ("B", envA), ("C", envA)] :
            List (String × EnvConfig)).filter fun p => p.1 ≠ "C") ∧
        cfg2.authtype = AuthType.oauth ∧
        ((("C" : String) = "C") →
          cfg2.activeenvironment = (envKeys cfg2.environments).headD "") ∧
        ((("C" : String) ≠ "C") → cfg2.activeenvironment = "C") ∧
        (∀ k ∈ allSecretKeys,
          (deleteEnvironment wThree "C").1.secrets (secretFileName k "C") = none) ∧
        (∀ f, (∀ k ∈ allSecretKeys, f ≠ secretFileName k "C") →
          (deleteEnvironment wThree "C").1.secrets f = wThree.secrets f)) :=
  ⟨rfl, by decide,
    (deleteEnvironment_spec wThree ⟨.oauth, "C", [("A", envA), ("B", envA), ("C", envA)]⟩
      "C" rfl).2 (by decide)⟩

/-! ### Claim C7 -/

/-- Upserting the same binding twice leaves the registry list as after one
upsert. -/
theorem envUpsert_idem (l : List (String × EnvConfig)) (name : String) (v : EnvConfig) :
    envUpsert (envUpsert l name v) name v = envUpsert l name v := by
  unfold envUpsert
  by_cases h : (l.any fun p => p.1 = name) = true
  · rw [if_pos h]
    have hcomp : ((fun p : String × EnvConfig => decide (p.1 = name)) ∘
        fun p => if p.1 = name then (name, v) else p) =
          fun p : String × EnvConfig => decide (p.1 = name) := by
      funext p
      by_cases hp : p.1 = name <;> simp [hp]
    have hany2 : ((l.map fun p => if p.1 = name then (name, v) else p).any
        fun p => p.1 = name) = true := by
      rw [List.any_map, hcomp]
      exact h
    rw [if_pos hany2, List.map_map]
    have hff : ((fun p : String × EnvConfig => if p.1 = name then (name, v) else p) ∘
        fun p => if p.1 = name then (name, v) else p) =
          fun p : String × EnvConfig => if p.1 = name then (name, v) else p := by
      funext p
      by_cases hp : p.1 = name <;> simp [hp]
    rw [hff]
  · rw [if_neg h]
    have hnone : ∀ p ∈ l, ¬p.1 = name := by
      intro p hp hpn
      exact h (List.any_eq_true.mpr ⟨p, hp, by simp [hpn]⟩)
    have hany2 : ((l ++ [(name, v)]).any fun p => p.1 = name) = true := by simp
    rw [if_pos hany2, List.map_append]
    have hmap : (l.map fun p => if p.1 = name then (name, v) else p) = l := by
      rw [List.map_congr_left (g := id) fun p hp => by simp [hnone p hp], List.map_id]
    rw [hmap]
    simp

/-- Re-running the credential writes of `updateEnvironment` leaves the
secret files as after the first run. -/
theorem secretsInsert_reinsert (s : String → Option SecretFile) (n1 n2 : String)
    (v1 v2 : SecretFile) :
    secretsInsert (secretsInsert (secretsInsert (secretsInsert s n1 v1) n2 v2) n1 v1) n2 v2 =
      secretsInsert (secretsInsert s n1 v1) n2 v2 := by
  funext f
  unfold secretsInsert
  by_cases h2 : f = n2 <;> by_cases h1 : f = n1 <;> simp [h1, h2]

/-- Claim C7: `updateEnvironment` is idempotent -- running it twice in a row
with the same request leaves the registry file and the stored secrets in the
same state as running it once (same environment URLs, same active
environment, same global auth mode, and the same stored credential values
when both are supplied), in every starting world, including the
missing-config and encryption-unavailable cases. -/
theorem updateEnvironment_idempotent (w : World) (req : UpdateEnvironmentRequest) :
    (updateEnvironment (updateEnvironment w req).1 req).1 = (updateEnvironment w req).1 := by
  obtain ⟨cfg0, sec, enc⟩ := w
  cases enc with
  | false =>
    by_cases hcred : (jsTruthy req.clientId && jsTruthy req.clientSecret) = true
    · simp [updateEnvironment, hcred, setSecureValue]
    · simp [updateEnvironment, hcred, setConfig, envUpsert_idem]
  | true =>
    by_cases hcred : (jsTruthy req.clientId && jsTruthy req.clientSecret) = true
    · simp [updateEnvironment, hcred, setSecureValue, setConfig, envUpsert_idem,
        secretsInsert_reinsert]
    · simp [updateEnvironment, hcred, setConfig, envUpsert_idem]

/-! ### Claim C8 -/

/-- Two secret keys with different sanitized forms live in different files
for the same environment. -/
theorem secretFileName_ne (k1 k2 env : String) (h : sanitizeName k1 ≠ sanitizeName k2) :
    secretFileName k1 env ≠ secretFileName k2 env := by
  intro he
  apply h
  unfold secretFileName at he
  rw [String.ext_iff] at he ⊢
  simp only [String.data_append, List.append_assoc] at he
  exact (List.append_inj' he rfl).1

/-- `setSecureValue` never touches the config file. -/
theorem setSecureValue_fst_config (w : World) (k env v : String) :
    (setSecureValue w k env v).1.config = w.config := by
  unfold setSecureValue
  cases henc : w.encAvailable <;> simp [henc]

/-- `setSecureValue` never touches the encryption availability. -/
theorem setSecureValue_fst_enc (w : World) (k env v : String) :
    (setSecureValue w k env v).1.encAvailable = w.encAvailable := by
  unfold setSecureValue
  cases henc : w.encAvailable <;> simp [henc]

/-- `setSecureValue` touches no secret file other than its own. -/
theorem setSecureValue_fst_secrets_ne (w : World) (k env v f : String)
    (h : f ≠ secretFileName k env) :
    (setSecureValue w k env v).1.secrets f = w.secrets f := by
  unfold setSecureValue
  cases henc : w.encAvailable <;> simp [henc, secretsInsert, h]

/-- `storePATTokens` touches neither the config nor any secret file other
than the derived access token and its expiry. -/
theorem storePATTokens_frame (w : World) (env tok : String) (e : JsDate) :
    (storePATTokens w env tok e).1.config = w.config ∧
    (storePATTokens w env tok e).1.encAvailable = w.encAvailable ∧
    ∀ f, f ≠ secretFileName "environments.pat.accesstoken" env →
         f ≠ secretFileName "environments.pat.expiry" env →
      (storePATTokens w env tok e).1.secrets f = w.secrets f := by
  by_cases henc : w.encAvailable = true
  · cases e with
    | none =>
      refine ⟨?_, ?_, fun f hf1 hf2 => ?_⟩ <;>
        simp [storePATTokens, setSecureValue, henc, jsDateToISO, secretsInsert, *]
    | some ms =>
      refine ⟨?_, ?_, fun f hf1 hf2 => ?_⟩ <;>
        simp [storePATTokens, setSecureValue, henc, jsDateToISO, secretsInsert, *]
  · have henc' : w.encAvailable = false := by revert henc; cases w.encAvailable <;> simp
    refine ⟨?_, ?_, fun f hf1 hf2 => ?_⟩ <;>
      simp [storePATTokens, setSecureValue, henc', jsDateToISO, secretsInsert, *]

/-- Claim C8: `refreshPATToken` never touches the stored client identifier
or client secret (nor any secret file other than the derived access token
and its expiry, nor the config); and when the token request fails -- the
endpoint responds non-success or the request throws -- it reports the
failure and leaves the whole world unchanged. -/
theorem refreshPATToken_frame (w : World) (environment : String) (fetch : FetchResult) :
    ((refreshPATToken w environment fetch).1.config = w.config) ∧
    ((refreshPATToken w environment fetch).1.encAvailable = w.encAvailable) ∧
    (∀ f, f ≠ secretFileName "environments.pat.accesstoken" environment →
          f ≠ secretFileName "environments.pat.expiry" environment →
      (refreshPATToken w environment fetch).1.secrets f = w.secrets f) ∧
    ((refreshPATToken w environment fetch).1.secrets
        (secretFileName "environments.pat.clientid" environment) =
      w.secrets (secretFileName "environments.pat.clientid" environment)) ∧
    ((refreshPATToken w environment fetch).1.secrets
        (secretFileName "environments.pat.clientsecret" environment) =
      w.secrets (secretFileName "environments.pat.clientsecret" environment)) ∧
    (∀ m, fetch = .netError m →
      (refreshPATToken w environment fetch).1 = w ∧
      (refreshPATToken w environment fetch).2.1.isOk = false) ∧
    (∀ status body, fetch = .resp false status body →
      (refreshPATToken w environment fetch).1 = w ∧
      (refreshPATToken w environment fetch).2.1.isOk = false) := by
  have hne1 : secretFileName "environments.pat.clientid" environment ≠
      secretFileName "environments.pat.accesstoken" environment :=
    secretFileName_ne _ _ _ (by decide)
  have hne2 : secretFileName "environments.pat.clientid" environment ≠
      secretFileName "environments.pat.expiry" environment :=
    secretFileName_ne _ _ _ (by decide)
  have hne3 : secretFileName "environments.pat.clientsecret" environment ≠
      secretFileName "environments.pat.accesstoken" environment :=
    secretFileName_ne _ _ _ (by decide)
  have hne4 : secretFileName "environments.pat.clientsecret" environment ≠
      secretFileName "environments.pat.expiry" environment :=
    secretFileName_ne _ _ _ (by decide)
  cases hstored : getStoredPATTokens w environment with
  | none =>
    have hred : refreshPATToken w environment fetch =
        (w, .error "No stored PAT tokens found for environment", 0) := by
      unfold refreshPATToken
      rw [hstored]
    rw [hred]
    exact ⟨rfl, rfl, fun _ _ _ => rfl, rfl, rfl,
      fun _ _ => ⟨rfl, rfl⟩, fun _ _ _ => ⟨rfl, rfl⟩⟩
  | some pt =>
    cases hcfg : w.config with
    | none =>
      have hred : refreshPATToken w environment fetch =
          (w, .error "Error reading config file", 0) := by
        unfold refreshPATToken
        simp only [hstored, hcfg]
      rw [hred]
      exact ⟨hcfg, rfl, fun _ _ _ => rfl, rfl, rfl,
        fun _ _ => ⟨rfl, rfl⟩, fun _ _ _ => ⟨rfl, rfl⟩⟩
    | some cfg =>
      cases henv : cfg.environments.find? (fun p => p.1 = environment) with
      | none =>
        have hred : refreshPATToken w environment fetch =
            (w, .error "Environment configuration not found", 0) := by
          unfold refreshPATToken
          simp only [hstored, hcfg, henv]
        rw [hred]
        exact ⟨hcfg, rfl, fun _ _ _ => rfl, rfl, rfl,
          fun _ _ => ⟨rfl, rfl⟩, fun _ _ _ => ⟨rfl, rfl⟩⟩
      | some envc =>
        cases fetch with
        | netError m =>
          have hred : refreshPATToken w environment (.netError m) = (w, .error m, 1) := by
            unfold refreshPATToken
            simp only [hstored, hcfg, henv]
          rw [hred]
          exact ⟨hcfg, rfl, fun _ _ _ => rfl, rfl, rfl,
            fun _ _ => ⟨rfl, rfl⟩, fun _ _ h => by simp at h⟩
        | resp ok status body =>
          cases ok with
          | false =>
            have hred : refreshPATToken w environment (.resp false status body) =
                (w, .error ("Token refresh failed: " ++ toString status), 1) := by
              unfold refreshPATToken
              simp only [hstored, hcfg, henv, Bool.not_false, if_pos]
            rw [hred]
            exact ⟨hcfg, rfl, fun _ _ _ => rfl, rfl, rfl,
              fun _ h => by simp at h, fun s b h => ⟨rfl, rfl⟩⟩
          | true =>
            cases htok : body.access_token with
            | none =>
              have hred : refreshPATToken w environment (.resp true status body) =
                  (w, .error "TypeError: access_token missing", 1) := by
                unfold refreshPATToken
                simp only [hstored, hcfg, henv, htok, Bool.not_true,
                  if_neg (by simp : ¬ (false = true))]
              rw [hred]
              exact ⟨hcfg, rfl, fun _ _ _ => rfl, rfl, rfl,
                fun _ h => by simp at h, fun s b h => by simp at h⟩
            | some tok =>
              cases hjwt : parseJwt tok with
              | error e =>
                have hred : refreshPATToken w environment (.resp true status body) =
                    (w, .error e, 1) := by
                  unfold refreshPATToken
                  simp only [hstored, hcfg, henv, htok, hjwt, Bool.not_true,
                    if_neg (by simp : ¬ (false = true))]
                rw [hred]
                exact ⟨hcfg, rfl, fun _ _ _ => rfl, rfl, rfl,
                  fun _ h => by simp at h, fun s b h => by simp at h⟩
              | ok claims =>
                rcases hsp : storePATTokens w environment tok (tokenExpiryDate claims)
                  with ⟨w1, r⟩
                have hred : refreshPATToken w environment (.resp true status body) =
                    (w1, r, 1) := by
                  unfold refreshPATToken
                  simp only [hstored, hcfg, henv, htok, hjwt, hsp, Bool.not_true,
                    if_neg (by simp : ¬ (false = true))]
                obtain ⟨hc, he, hs⟩ :=
                  storePATTokens_frame w environment tok (tokenExpiryDate claims)
                rw [hsp] at hc he hs
                rw [hred]
                exact ⟨hc.trans hcfg, he, fun f hf1 hf2 => hs f hf1 hf2,
                  hs _ hne1 hne2, hs _ hne3 hne4,
                  fun _ h => by simp at h, fun s b h => by simp at h⟩

/-- A world in PAT mode with stored client credentials for `prod`. -/
def patSecretsFor (env cid csec : String) : String → Option SecretFile := fun f =>
  if f = secretFileName "environments.pat.clientid" env then some (.enc cid)
  else if f = secretFileName "environments.pat.clientsecret" env then some (.enc csec)
  else none

/-- A world configured for service-credential auth on `prod`. -/
def wPat : World :=
  ⟨some ⟨.pat, "prod", [("prod", ⟨"https://tenant", "https://api"⟩)]⟩,
    patSecretsFor "prod" "abc" "xyz", true⟩

/-- Witness for C8: a concrete non-success token response leaves the world
unchanged and reports failure. -/
theorem refreshPATToken_frame_witness :
    (FetchResult.resp false 500 ⟨none, none⟩ : FetchResult) =
      .resp false 500 ⟨none, none⟩ ∧
    (refreshPATToken wPat "prod" (.resp false 500 ⟨none, none⟩)).1 = wPat ∧
    (refreshPATToken wPat "prod" (.resp false 500 ⟨none, none⟩)).2.1.isOk = false :=
  ⟨rfl, (refreshPATToken_frame wPat "prod"
    (.resp false 500 ⟨none, none⟩)).2.2.2.2.2.2 500 ⟨none, none⟩ rfl⟩

/-! ### Claim C9 -/

/-- The single-flight invariant: stored-token-set mutations never exceed
network round trips (each in-flight caller accounts for the round trip it
already issued), and the in-memory flag is set exactly while one caller is
in flight -- so at most one refresh runs at a time. -/
def SysInv (sys : RefreshSys) : Prop :=
  sys.muts + countInflight sys ≤ sys.netCalls ∧
  (sys.flag = true ↔ countInflight sys = 1) ∧
  countInflight sys ≤ 1

/-- An in-flight task index witnesses a positive in-flight count. -/
theorem countInflight_pos (sys : RefreshSys) (i : Nat)
    (h : sys.tasks.get? i = some .inflight) : 1 ≤ countInflight sys := by
  rw [List.get?_eq_some] at h
  obtain ⟨hi, hget⟩ := h
  have := List.boole_getElem_le_countP (· == Phase.inflight) sys.tasks i hi
  unfold countInflight
  rw [List.get_eq_getElem] at hget
  rw [hget] at this
  simpa using this

/-- Rewriting the in-flight count across one task update. -/
theorem countP_inflight_set (tasks : List Phase) (i : Nat) (p q : Phase)
    (hi : i < tasks.length) (hget : tasks[i] = p) :
    (tasks.set i q).countP (· == Phase.inflight) =
      tasks.countP (· == Phase.inflight) -
        (if p = Phase.inflight then 1 else 0) +
        (if q = Phase.inflight then 1 else 0) := by
  rw [List.countP_set _ _ _ _ hi, hget]
  congr 1
  · congr 1
    by_cases hp : p = Phase.inflight <;> simp [hp]
  · by_cases hq : q = Phase.inflight <;> simp [hq]

/-- Each atomic segment of `refreshSession` preserves the single-flight
invariant. -/
theorem stepAt_inv (outcomes : Nat → Bool) (sys : RefreshSys) (i : Nat)
    (h : SysInv sys) : SysInv (stepAt outcomes sys i) := by
  obtain ⟨flag, net, muts, tasks⟩ := sys
  obtain ⟨h1, h2, h3⟩ := h
  simp only [SysInv, countInflight] at h1 h2 h3 ⊢
  unfold stepAt
  cases hg : (⟨flag, net, muts, tasks⟩ : RefreshSys).tasks.get? i with
  | none => exact ⟨h1, h2, h3⟩
  | some p =>
    have hi : i < tasks.length := (List.get?_eq_some.mp hg).1
    have hgetElem : tasks[i] = p := by
      have h5 := (List.get?_eq_some.mp hg).2
      rwa [List.get_eq_getElem] at h5
    cases p with
    | idle =>
      by_cases hf : flag = true
      · subst hf
        simp only [eq_self_iff_true, if_true]
        rw [countP_inflight_set tasks i .idle .doneEarly hi hgetElem]
        simp only [reduceCtorEq, if_false]
        refine ⟨by omega, by simpa using h2, by omega⟩
      · have hff : flag = false := by revert hf; cases flag <;> simp
        subst hff
        have hzero : tasks.countP (· == Phase.inflight) = 0 := by
          rcases Nat.eq_zero_or_pos (tasks.countP (· == Phase.inflight)) with h0 | hpos
          · exact h0
          · exact absurd (h2.mpr (Nat.le_antisymm h3 hpos)) (by simp)
        simp only [Bool.false_eq_true, if_false]
        rw [countP_inflight_set tasks i .idle .inflight hi hgetElem]
        simp only [reduceCtorEq, if_false, if_true]
        refine ⟨by omega, by simp [hzero], by omega⟩
    | inflight =>
      have hpos : 1 ≤ tasks.countP (· == Phase.inflight) := by
        have h6 := List.boole_getElem_le_countP (· == Phase.inflight) tasks i hi
        rw [hgetElem] at h6
        simpa using h6
      have hone : tasks.countP (· == Phase.inflight) = 1 := Nat.le_antisymm h3 hpos
      dsimp only
      rw [countP_inflight_set tasks i .inflight .doneFull hi hgetElem]
      simp only [reduceCtorEq, if_false, if_true]
      refine ⟨?_, by simp [hone], by omega⟩
      by_cases ho : outcomes i = true <;> simp [ho] <;> omega
    | doneEarly => exact ⟨h1, h2, h3⟩
    | doneFull => exact ⟨h1, h2, h3⟩

/-- Running any schedule preserves the single-flight invariant. -/
theorem runSched_inv (outcomes : Nat → Bool) (sched : List Nat) (sys : RefreshSys)
    (h : SysInv sys) : SysInv (runSched outcomes sys sched) := by
  induction sched generalizing sys with
  | nil => exact h
  | cons i rest ih => exact ih _ (stepAt_inv outcomes sys i h)

/-- The initial state of `n` callers satisfies the invariant. -/
theorem initSys_inv (n : Nat) : SysInv (initSys n) := by
  have hzero : (List.replicate n Phase.idle).countP (· == Phase.inflight) = 0 := by
    rw [List.countP_eq_zero]
    intro p hp
    rw [List.eq_of_mem_replicate hp]
    decide
  refine ⟨?_, ?_, ?_⟩ <;> simp [SysInv, initSys, countInflight, hzero]

/-- Schedules compose by appending. -/
theorem runSched_append (outcomes : Nat → Bool) (sys : RefreshSys) (a b : List Nat) :
    runSched outcomes sys (a ++ b) = runSched outcomes (runSched outcomes sys a) b := by
  induction a generalizing sys with
  | nil => rfl
  | cons i rest ih => exact ih (stepAt outcomes sys i)

/-- Claim C9: the renderer's token refresh is single-flight per process.
After any interleaving of `n` concurrent callers of `refreshSession`:
at most one refresh is in flight; the stored token set has been mutated at
most once per network round trip actually issued; and a caller that reaches
its flag check while a refresh is in flight (flag set) completes
immediately in that same step -- marked done-early, the "already in
progress" response -- changing neither the flag, the round-trip count, the
mutation count, nor any other caller, instead of being queued. -/
theorem refreshSession_singleFlight (outcomes : Nat → Bool) (n : Nat)
    (sched : List Nat) :
    countInflight (runSched outcomes (initSys n) sched) ≤ 1 ∧
    (runSched outcomes (initSys n) sched).muts ≤
      (runSched outcomes (initSys n) sched).netCalls ∧
    (∀ i, (runSched outcomes (initSys n) sched).tasks.get? i = some .idle →
      (runSched outcomes (initSys n) sched).flag = true →
      runSched outcomes (initSys n) (sched ++ [i]) =
        { runSched outcomes (initSys n) sched with
            tasks := (runSched outcomes (initSys n) sched).tasks.set i .doneEarly }) := by
  obtain ⟨h1, _h2, h3⟩ := runSched_inv outcomes sched (initSys n) (initSys_inv n)
  refine ⟨h3, by omega, ?_⟩
  intro i hidle hflag
  rw [runSched_append]
  show stepAt outcomes (runSched outcomes (initSys n) sched) i = _
  unfold stepAt
  rw [hidle, if_pos hflag]

/-- Witness for C9: two concrete callers; the first starts a refresh, the
second hits the guard and returns early without a second network call. -/
theorem refreshSession_singleFlight_witness :
    (runSched (fun _ => true) (initSys 2) [0]).tasks.get? 1 = some .idle ∧
    (runSched (fun _ => true) (initSys 2) [0]).flag = true ∧
    runSched (fun _ => true) (initSys 2) ([0] ++ [1]) =
      { runSched (fun _ => true) (initSys 2) [0] with
          tasks := (runSched (fun _ => true) (initSys 2) [0]).tasks.set 1 .doneEarly } :=
  ⟨rfl, rfl,
    (refreshSession_singleFlight (fun _ => true) 2 [0]).2.2 1 rfl rfl⟩

/-! ### Claim C5: the digit printer round-trips through the numeral reader -/

/-- The digit character of a residue is the residue again. -/
theorem digitChar_val (m : Nat) (hm : m < 10) :
    (Char.ofNat ('0'.toNat + m)).toNat - '0'.toNat = m := by
  interval_cases m <;> decide

/-- The digit character of a residue is a digit. -/
theorem isDigit_digitChar (m : Nat) (hm : m < 10) :
    (Char.ofNat ('0'.toNat + m)).isDigit = true := by
  interval_cases m <;> decide

/-- The accumulator of the digit printer is a suffix. -/
theorem natDigitsGo_acc (fuel n : Nat) (acc : List Char) (h : n < fuel) :
    natDigitsGo fuel n acc = natDigitsGo fuel n [] ++ acc := by
  induction fuel generalizing n acc with
  | zero => omega
  | succ f ih =>
    unfold natDigitsGo
    dsimp only
    by_cases h10 : n < 10
    · rw [if_pos h10, if_pos h10]
      rfl
    · rw [if_neg h10, if_neg h10]
      have hd : n / 10 < f := by
        have := Nat.div_lt_self (show 0 < n by omega) (show 1 < 10 by norm_num)
        omega
      rw [ih (n / 10) _ hd, ih (n / 10) [Char.ofNat ('0'.toNat + n % 10)] hd,
        List.append_assoc, List.singleton_append]

/-- Appending a digit multiplies the numeral value by ten. -/
theorem digitsVal_append_singleton (ds : List Char) (d : Char) :
    digitsVal (ds ++ [d]) = digitsVal ds * 10 + (d.toNat - '0'.toNat) := by
  unfold digitsVal
  rw [List.foldl_append]
  rfl

/-- The digit printer prints the number it was given. -/
theorem digitsVal_natDigitsGo (fuel n : Nat) (h : n < fuel) :
    digitsVal (natDigitsGo fuel n []) = n := by
  induction fuel generalizing n with
  | zero => omega
  | succ f ih =>
    unfold natDigitsGo
    dsimp only
    by_cases h10 : n < 10
    · rw [if_pos h10]
      have hv := digitChar_val (n % 10) (Nat.mod_lt _ (by norm_num))
      unfold digitsVal
      simp only [List.foldl_cons, List.foldl_nil]
      omega
    · rw [if_neg h10]
      have hd : n / 10 < f := by
        have := Nat.div_lt_self (show 0 < n by omega) (show 1 < 10 by norm_num)
        omega
      rw [natDigitsGo_acc f (n / 10) _ hd, digitsVal_append_singleton, ih _ hd]
      have hv := digitChar_val (n % 10) (Nat.mod_lt _ (by norm_num))
      omega

/-- The digit printer prints digits. -/
theorem natDigitsGo_all_digit (fuel n : Nat) (h : n < fuel) :
    (natDigitsGo fuel n []).all Char.isDigit = true := by
  induction fuel generalizing n with
  | zero => omega
  | succ f ih =>
    unfold natDigitsGo
    dsimp only
    by_cases h10 : n < 10
    · rw [if_pos h10]
      simp only [List.all_cons, List.all_nil, Bool.and_true]
      exact isDigit_digitChar (n % 10) (Nat.mod_lt _ (by norm_num))
    · rw [if_neg h10]
      have hd : n / 10 < f := by
        have := Nat.div_lt_self (show 0 < n by omega) (show 1 < 10 by norm_num)
        omega
      rw [natDigitsGo_acc f (n / 10) _ hd]
      rw [List.all_append]
      simp only [ih _ hd, List.all_cons, List.all_nil, Bool.and_true, Bool.true_and]
      exact isDigit_digitChar (n % 10) (Nat.mod_lt _ (by norm_num))

/-- The digit printer prints at least one digit. -/
theorem natDigitsGo_ne_nil (fuel n : Nat) (h : n < fuel) :
    natDigitsGo fuel n [] ≠ [] := by
  cases fuel with
  | zero => omega
  | succ f =>
    unfold natDigitsGo
    dsimp only
    by_cases h10 : n < 10
    · rw [if_pos h10]
      simp
    · rw [if_neg h10]
      have hd : n / 10 < f := by
        have := Nat.div_lt_self (show 0 < n by omega) (show 1 < 10 by norm_num)
        omega
      rw [natDigitsGo_acc f (n / 10) _ hd]
      simp

/-- `natDigits` facts packaged: non-empty, all digits, correct value. -/
theorem natDigits_spec (n : Nat) :
    natDigits n ≠ [] ∧ (natDigits n).all Char.isDigit = true ∧
      digitsVal (natDigits n) = n :=
  ⟨natDigitsGo_ne_nil (n + 1) n (by omega),
    natDigitsGo_all_digit (n + 1) n (by omega),
    digitsVal_natDigitsGo (n + 1) n (by omega)⟩

/-- What may follow a serialized number so that the greedy digit scan stops
exactly at its end: nothing, or a non-digit character. -/
def numOk : List Char → Prop
  | [] => True
  | c :: _ => c.isDigit = false

/-- The greedy digit scan over a digit block followed by a `numOk` tail
takes exactly the block and drops to the tail. -/
theorem takeWhile_digits (l rest : List Char) (hall : l.all Char.isDigit = true)
    (hrest : numOk rest) :
    (l ++ rest).takeWhile Char.isDigit = l ∧
      (l ++ rest).dropWhile Char.isDigit = rest := by
  induction l with
  | nil =>
    cases rest with
    | nil => exact ⟨rfl, rfl⟩
    | cons c rs =>
      have hc : c.isDigit = false := hrest
      simp [List.takeWhile, List.dropWhile, hc]
  | cons x xs ih =>
    simp only [List.all_cons, Bool.and_eq_true] at hall
    have := ih hall.2
    simp [List.takeWhile, List.dropWhile, hall.1, this.1, this.2]

/-- A digit character differs from every delimiter and keyword-head
character the parser dispatches on. -/
theorem digit_ne (c : Char) (h : c.isDigit = true) :
    c ≠ 'n' ∧ c ≠ 't' ∧ c ≠ 'f' ∧ c ≠ '"' ∧ c ≠ '[' ∧ c ≠ '\x7b' ∧ c ≠ '-' ∧
      c ≠ ']' ∧ c ≠ '\x7d' ∧ c ≠ ',' ∧ c ≠ ':' ∧
      c ≠ ' ' ∧ c ≠ '\t' ∧ c ≠ '\n' ∧ c ≠ '\r' := by
  refine ⟨?_, ?_, ?_, ?_, ?_, ?_, ?_, ?_, ?_, ?_, ?_, ?_, ?_, ?_, ?_⟩ <;>
    · rintro rfl
      revert h
      decide

/-- `skipWs` is the identity on input starting with a non-whitespace
character. -/
theorem skipWs_cons (c : Char) (l : List Char)
    (h : c ≠ ' ' ∧ c ≠ '\t' ∧ c ≠ '\n' ∧ c ≠ '\r') : skipWs (c :: l) = c :: l := by
  unfold skipWs
  rw [if_neg]
  simp only [Bool.or_eq_true, decide_eq_true_eq]
  rintro (h1 | h1 | h1 | h1) <;> simp_all

/-- One unfolding step of the numeral reader on a non-empty input. -/
theorem parseIntTok_cons (c : Char) (rest : List Char) :
    parseIntTok (c :: rest) =
      if c = '-' then
        if (rest.takeWhile Char.isDigit).isEmpty then none
        else some (-(digitsVal (rest.takeWhile Char.isDigit) : Int),
          rest.dropWhile Char.isDigit)
      else
        if ((c :: rest).takeWhile Char.isDigit).isEmpty then none
        else some ((digitsVal ((c :: rest).takeWhile Char.isDigit) : Int),
          (c :: rest).dropWhile Char.isDigit) := rfl

/-- The numeral reader reads back a printed integer exactly, leaving a
`numOk` tail untouched. -/
theorem parseIntTok_intDigits (n : Int) (rest : List Char) (hrest : numOk rest) :
    parseIntTok (intDigits n ++ rest) = some (n, rest) := by
  obtain ⟨hne, hdig, hval⟩ := natDigits_spec n.toNat
  obtain ⟨hne2, hdig2, hval2⟩ := natDigits_spec (-n).toNat
  unfold intDigits
  by_cases hn : n < 0
  · rw [if_pos hn]
    obtain ⟨htake, hdrop⟩ := takeWhile_digits (natDigits (-n).toNat) rest hdig2 hrest
    rw [List.cons_append, parseIntTok_cons, if_pos rfl, htake, hdrop]
    rw [if_neg (by simp only [List.isEmpty_eq_true]; exact hne2), hval2]
    have hcast : (((-n).toNat : Int)) = -n := Int.toNat_of_nonneg (by omega)
    rw [hcast]
    simp
  · rw [if_neg hn]
    cases hx : natDigits n.toNat with
    | nil => exact absurd hx hne
    | cons d0 ds =>
      rw [hx] at hdig hval
      have hd0 : d0.isDigit = true := by
        simp only [List.all_cons, Bool.and_eq_true] at hdig
        exact hdig.1
      have hdne := digit_ne d0 hd0
      obtain ⟨htake, hdrop⟩ := takeWhile_digits (d0 :: ds) rest hdig hrest
      rw [List.cons_append, parseIntTok_cons, if_neg hdne.2.2.2.2.2.2.1]
      rw [show d0 :: (ds ++ rest) = (d0 :: ds) ++ rest from rfl, htake, hdrop]
      rw [if_neg (by simp)]
      rw [hval, Int.toNat_of_nonneg (by omega)]

/-- A plain string character is neither quote, backslash, nor a control
character. -/
theorem plainChar_facts (c : Char) (h : plainChar c = true) :
    c ≠ '"' ∧ c ≠ '\\' ∧ ¬c.toNat < 0x20 := by
  simp only [plainChar, Bool.and_eq_true, decide_eq_true_eq] at h
  obtain ⟨⟨⟨h1, _⟩, h3⟩, h4⟩ := h
  exact ⟨by simpa using h3, by simpa using h4, by omega⟩

/-- The string-body reader reads a plain string through its closing quote,
at any adequate fuel. -/
theorem parseStrGo_plain (fuel : Nat) (cs rest : List Char)
    (hall : cs.all plainChar = true) (hfuel : cs.length < fuel) :
    parseStrGo fuel (cs ++ '"' :: rest) = some (cs, rest) := by
  induction fuel generalizing cs with
  | zero => omega
  | succ f ih =>
    cases cs with
    | nil =>
      simp only [List.nil_append]
      unfold parseStrGo
      rw [if_pos rfl]
    | cons c cs2 =>
      simp only [List.all_cons, Bool.and_eq_true] at hall
      obtain ⟨hq, hb, hctrl⟩ := plainChar_facts c hall.1
      simp only [List.cons_append]
      unfold parseStrGo
      rw [if_neg hq, if_neg hb, if_neg hctrl]
      rw [ih cs2 hall.2 (by simpa using Nat.lt_of_succ_lt_succ hfuel)]

/-- The string-body reader reads a plain string through its closing quote. -/
theorem parseStrChars_plain (cs rest : List Char) (hall : cs.all plainChar = true) :
    parseStrChars (cs ++ '"' :: rest) = some (cs, rest) := by
  unfold parseStrChars
  apply parseStrGo_plain
  · exact hall
  · simp only [List.length_append, List.length_cons]
    omega

mutual

/-- Fuel needed by the value reader on a given JSON value. -/
def jfuel : Json → Nat
  | .null => 1
  | .bool _ => 1
  | .num _ => 1
  | .str _ => 1
  | .arr xs => 1 + jfuelItems xs
  | .obj kvs => 1 + jfuelFields kvs

/-- Fuel needed by the item reader on a non-empty array body. -/
def jfuelItems : List Json → Nat
  | [] => 0
  | x :: xs => 1 + jfuel x + jfuelItems xs

/-- Fuel needed by the member reader on a non-empty object body. -/
def jfuelFields : List (String × Json) → Nat
  | [] => 0
  | (_, v) :: kvs => 1 + jfuel v + jfuelFields kvs

end

/-- Every value needs at least one unit of fuel. -/
theorem jfuel_pos (j : Json) : 1 ≤ jfuel j := by
  cases j <;> simp [jfuel]

/-- The characters a serialized JSON value can start with. -/
def headOk (c : Char) : Prop :=
  c = 'n' ∨ c = 't' ∨ c = 'f' ∨ c = '"' ∨ c = '[' ∨ c = '\x7b' ∨ c = '-' ∨
    c.isDigit = true

/-- Every serialized value starts with a dispatchable head character. -/
theorem serializeChars_head (j : Json) :
    ∃ c cs, Json.serializeChars j = c :: cs ∧ headOk c := by
  cases j with
  | null => exact ⟨'n', _, rfl, by simp [headOk]⟩
  | bool b =>
    cases b with
    | true => exact ⟨'t', _, rfl, by simp [headOk]⟩
    | false => exact ⟨'f', _, rfl, by simp [headOk]⟩
  | str s => exact ⟨'"', _, rfl, by simp [headOk]⟩
  | arr xs => exact ⟨'[', _, rfl, by simp [headOk]⟩
  | obj kvs => exact ⟨'\x7b', _, rfl, by simp [headOk]⟩
  | num n =>
    show ∃ c cs, intDigits n = c :: cs ∧ headOk c
    unfold intDigits
    by_cases hn : n < 0
    · rw [if_pos hn]
      exact ⟨'-', _, rfl, by simp [headOk]⟩
    · rw [if_neg hn]
      obtain ⟨hne, hdig, _⟩ := natDigits_spec n.toNat
      cases hx : natDigits n.toNat with
      | nil => exact absurd hx hne
      | cons d0 ds =>
        rw [hx] at hdig
        simp only [List.all_cons, Bool.and_eq_true] at hdig
        exact ⟨d0, ds, rfl, Or.inr (Or.inr (Or.inr (Or.inr (Or.inr (Or.inr
          (Or.inr hdig.1))))))⟩

/-- A head character is not whitespace and not a closing delimiter. -/
theorem headOk_facts (c : Char) (h : headOk c) :
    (c ≠ ' ' ∧ c ≠ '\t' ∧ c ≠ '\n' ∧ c ≠ '\r') ∧ c ≠ ']' ∧ c ≠ '\x7d' := by
  refine ⟨⟨?_, ?_, ?_, ?_⟩, ?_, ?_⟩ <;>
    · rintro rfl
      rcases h with h | h | h | h | h | h | h | h <;> revert h <;> decide

/-- One unfolding step of the value reader on non-whitespace-headed input. -/
theorem parseVal_succ_cons (f : Nat) (c : Char) (r : List Char)
    (hws : c ≠ ' ' ∧ c ≠ '\t' ∧ c ≠ '\n' ∧ c ≠ '\r') :
    parseVal (f + 1) (c :: r) =
      (if c = 'n' then
        match eatLit ['u', 'l', 'l'] r with
        | some r2 => some (.null, r2)
        | none => none
      else if c = 't' then
        match eatLit ['r', 'u', 'e'] r with
        | some r2 => some (.bool true, r2)
        | none => none
      else if c = 'f' then
        match eatLit ['a', 'l', 's', 'e'] r with
        | some r2 => some (.bool false, r2)
        | none => none
      else if c = '"' then
        match parseStrChars r with
        | some (b, rest) => some (.str ⟨b⟩, rest)
        | none => none
      else if c = '[' then
        match skipWs r with
        | [] => none
        | c2 :: r2 =>
          if c2 = ']' then some (.arr [], r2)
          else
            match parseItems f (c2 :: r2) with
            | some (xs, rest) => some (.arr xs, rest)
            | none => none
      else if c = '\x7b' then
        match skipWs r with
        | [] => none
        | c2 :: r2 =>
          if c2 = '\x7d' then some (.obj [], r2)
          else
            match parseFields f (c2 :: r2) with
            | some (kvs, rest) => some (.obj kvs, rest)
            | none => none
      else if c = '-' || c.isDigit then
        match parseIntTok (c :: r) with
        | some (n, rest) => some (.num n, rest)
        | none => none
      else none) := by
  unfold parseVal
  rw [skipWs_cons c r hws]

/-- One unfolding step of the item reader. -/
theorem parseItems_succ (f : Nat) (cs : List Char) :
    parseItems (f + 1) cs =
      (match parseVal f cs with
      | none => none
      | some (j, rest) =>
        match skipWs rest with
        | [] => none
        | c :: r2 =>
          if c = ',' then
            match parseItems f r2 with
            | some (xs, rest2) => some (j :: xs, rest2)
            | none => none
          else if c = ']' then some ([j], r2)
          else none) := rfl

/-- One unfolding step of the member reader. -/
theorem parseFields_succ (f : Nat) (cs : List Char) :
    parseFields (f + 1) cs =
      (match skipWs cs with
      | [] => none
      | c :: r =>
        if c = '"' then
          match parseStrChars r with
          | none => none
          | some (k, rest) =>
            match skipWs rest with
            | [] => none
            | c2 :: r2 =>
              if c2 = ':' then
                match parseVal f r2 with
                | none => none
                | some (v, rest2) =>
                  match skipWs rest2 with
                  | [] => none
                  | c3 :: r3 =>
                    if c3 = ',' then
                      match parseFields f r3 with
                      | none => none
                      | some (kvs, rest3) => some ((⟨k⟩, v) :: kvs, rest3)
                    else if c3 = '\x7d' then some ([(⟨k⟩, v)], r3)
                    else none
              else none
        else none) := rfl


/-- A cons list headed by a non-digit satisfies `numOk`. -/
theorem numOk_cons (c : Char) (r : List Char) (h : c.isDigit = false) : numOk (c :: r) := h

/-- The empty tail satisfies `numOk`. -/
theorem numOk_nil : numOk [] := trivial

/-- A digit is not whitespace. -/
theorem digit_not_ws (c : Char) (h : c.isDigit = true) :
    c ≠ ' ' ∧ c ≠ '\t' ∧ c ≠ '\n' ∧ c ≠ '\r' := by
  refine ⟨?_, ?_, ?_, ?_⟩ <;>
    · rintro rfl
      revert h
      decide

/-- The serialized items after the first one: nothing, or a comma and the
remaining items. -/
def itemsSep : List Json → List Char
  | [] => []
  | x :: xs => ',' :: Json.serializeItems (x :: xs)

/-- The serialized members after the first one. -/
def fieldsSep : List (String × Json) → List Char
  | [] => []
  | kv :: kvs => ',' :: Json.serializeFields (kv :: kvs)

/-- `serializeItems` of a cons is the first item followed by the rest. -/
theorem serializeItems_cons (x : Json) (xs : List Json) :
    Json.serializeItems (x :: xs) = Json.serializeChars x ++ itemsSep xs := by
  cases xs <;> simp [Json.serializeItems, itemsSep]

/-- `serializeFields` of a cons is the first member followed by the rest. -/
theorem serializeFields_cons (k : String) (v : Json) (kvs : List (String × Json)) :
    Json.serializeFields ((k, v) :: kvs) =
      '"' :: (k.toList ++ '"' :: ':' :: (Json.serializeChars v ++ fieldsSep kvs)) := by
  cases kvs <;> simp [Json.serializeFields, fieldsSep]

/-- The three readers read back serialized well-formed values exactly, at any
adequate fuel: the value reader on a serialized value before a `numOk` tail,
the item reader on a non-empty array body before its closing bracket, and the
member reader on a non-empty object body before its closing brace. -/
theorem parse_rt (fuel : Nat) :
    (∀ (j : Json) (rest : List Char), j.wf = true → jfuel j ≤ fuel → numOk rest →
      parseVal fuel (Json.serializeChars j ++ rest) = some (j, rest)) ∧
    (∀ (xs : List Json) (rest : List Char), xs ≠ [] → Json.wfList xs = true →
      jfuelItems xs ≤ fuel →
      parseItems fuel (Json.serializeItems xs ++ ']' :: rest) = some (xs, rest)) ∧
    (∀ (kvs : List (String × Json)) (rest : List Char), kvs ≠ [] →
      Json.wfFields kvs = true → jfuelFields kvs ≤ fuel →
      parseFields fuel (Json.serializeFields kvs ++ '\x7d' :: rest) = some (kvs, rest)) := by
  induction fuel with
  | zero =>
    refine ⟨fun j rest hwf hfuel hrest => absurd hfuel (by have := jfuel_pos j; omega),
      fun xs rest hne hwf hfuel => ?_, fun kvs rest hne hwf hfuel => ?_⟩
    · cases xs with
      | nil => exact absurd rfl hne
      | cons x xs2 =>
        simp only [jfuelItems] at hfuel
        omega
    · cases kvs with
      | nil => exact absurd rfl hne
      | cons kv kvs2 =>
        obtain ⟨k, v⟩ := kv
        simp only [jfuelFields] at hfuel
        omega
  | succ f ih =>
    obtain ⟨ihv, ihi, ihf⟩ := ih
    refine ⟨fun j rest hwf hfuel hrest => ?_, fun xs rest hne hwf hfuel => ?_,
      fun kvs rest hne hwf hfuel => ?_⟩
    · cases j with
      | null => rfl
      | bool b => cases b <;> rfl
      | num n =>
        by_cases hn : n < 0
        · have hid : intDigits n = '-' :: natDigits (-n).toNat := by
            unfold intDigits
            rw [if_pos hn]
          have hser : Json.serializeChars (.num n) ++ rest =
              '-' :: (natDigits (-n).toNat ++ rest) := by
            show intDigits n ++ rest = _
            rw [hid, List.cons_append]
          rw [hser, parseVal_succ_cons f '-' _ (by decide)]
          rw [if_neg (by decide), if_neg (by decide), if_neg (by decide),
            if_neg (by decide), if_neg (by decide), if_neg (by decide),
            if_pos (by decide)]
          rw [show '-' :: (natDigits (-n).toNat ++ rest) = intDigits n ++ rest from by
            rw [hid, List.cons_append]]
          rw [parseIntTok_intDigits n rest hrest]
        · obtain ⟨hne, hdig, _⟩ := natDigits_spec n.toNat
          cases hx : natDigits n.toNat with
          | nil => exact absurd hx hne
          | cons d0 ds =>
            rw [hx] at hdig
            have hd0 : d0.isDigit = true := by
              simp only [List.all_cons, Bool.and_eq_true] at hdig
              exact hdig.1
            have hne' := digit_ne d0 hd0
            have hid : intDigits n = d0 :: ds := by
              unfold intDigits
              rw [if_neg hn, hx]
            have hser : Json.serializeChars (.num n) ++ rest = d0 :: (ds ++ rest) := by
              show intDigits n ++ rest = _
              rw [hid, List.cons_append]
            rw [hser, parseVal_succ_cons f d0 _ (digit_not_ws d0 hd0)]
            rw [if_neg hne'.1, if_neg hne'.2.1, if_neg hne'.2.2.1,
              if_neg hne'.2.2.2.1, if_neg hne'.2.2.2.2.1, if_neg hne'.2.2.2.2.2.1,
              if_pos (by simp [hd0])]
            rw [show d0 :: (ds ++ rest) = intDigits n ++ rest from by
              rw [hid, List.cons_append]]
            rw [parseIntTok_intDigits n rest hrest]
      | str s =>
        have hplain : s.toList.all plainChar = true := hwf
        have hser : Json.serializeChars (.str s) ++ rest =
            '"' :: (s.toList ++ '"' :: rest) := by
          show ('"' :: s.toList ++ ['"']) ++ rest = _
          simp
        rw [hser, parseVal_succ_cons f '"' _ (by decide)]
        rw [if_neg (by decide), if_neg (by decide), if_neg (by decide), if_pos rfl]
        rw [parseStrChars_plain s.toList rest hplain]
        rfl
      | arr xs =>
        cases xs with
        | nil =>
          have hser : Json.serializeChars (.arr []) ++ rest = '[' :: ']' :: rest := rfl
          rw [hser, parseVal_succ_cons f '[' _ (by decide)]
          rw [if_neg (by decide), if_neg (by decide), if_neg (by decide),
            if_neg (by decide), if_pos rfl]
          rfl
        | cons x xs2 =>
          obtain ⟨c2, cs2, hc2, hhead⟩ := serializeChars_head x
          obtain ⟨hws2, hrb, hrbr⟩ := headOk_facts c2 hhead
          have hbody : Json.serializeItems (x :: xs2) ++ ']' :: rest =
              c2 :: (cs2 ++ itemsSep xs2 ++ ']' :: rest) := by
            rw [serializeItems_cons, hc2]
            simp
          have hser : Json.serializeChars (.arr (x :: xs2)) ++ rest =
              '[' :: (Json.serializeItems (x :: xs2) ++ ']' :: rest) := by
            show ('[' :: Json.serializeItems (x :: xs2) ++ [']']) ++ rest = _
            simp
          rw [hser, parseVal_succ_cons f '[' _ (by decide)]
          rw [if_neg (by decide), if_neg (by decide), if_neg (by decide),
            if_neg (by decide), if_pos rfl]
          rw [hbody, skipWs_cons c2 _ hws2]
          dsimp only
          rw [if_neg hrb]
          rw [show c2 :: (cs2 ++ itemsSep xs2 ++ ']' :: rest) =
              Json.serializeItems (x :: xs2) ++ ']' :: rest from by rw [hbody]]
          rw [ihi (x :: xs2) rest (by simp)
            (by simpa [Json.wf] using hwf)
            (by simp only [jfuel] at hfuel; omega)]
      | obj kvs =>
        cases kvs with
        | nil =>
          have hser : Json.serializeChars (.obj []) ++ rest = '\x7b' :: '\x7d' :: rest := rfl
          rw [hser, parseVal_succ_cons f '\x7b' _ (by decide)]
          rw [if_neg (by decide), if_neg (by decide), if_neg (by decide),
            if_neg (by decide), if_neg (by decide), if_pos rfl]
          rfl
        | cons kv kvs2 =>
          obtain ⟨k, v⟩ := kv
          have hbody : Json.serializeFields ((k, v) :: kvs2) ++ '\x7d' :: rest =
              '"' :: (k.toList ++ '"' :: ':' ::
                (Json.serializeChars v ++ fieldsSep kvs2) ++ '\x7d' :: rest) := by
            rw [serializeFields_cons]
            simp
          have hser : Json.serializeChars (.obj ((k, v) :: kvs2)) ++ rest =
              '\x7b' :: (Json.serializeFields ((k, v) :: kvs2) ++ '\x7d' :: rest) := by
            show ('\x7b' :: Json.serializeFields ((k, v) :: kvs2) ++ ['\x7d']) ++ rest = _
            simp
          rw [hser, parseVal_succ_cons f '\x7b' _ (by decide)]
          rw [if_neg (by decide), if_neg (by decide), if_neg (by decide),
            if_neg (by decide), if_neg (by decide), if_pos rfl]
          rw [hbody, skipWs_cons '"' _ (by decide)]
          dsimp only
          rw [if_neg (by decide)]
          rw [show ('"' : Char) :: (k.toList ++ '"' :: ':' ::
                (Json.serializeChars v ++ fieldsSep kvs2) ++ '\x7d' :: rest) =
              Json.serializeFields ((k, v) :: kvs2) ++ '\x7d' :: rest from by rw [hbody]]
          rw [ihf ((k, v) :: kvs2) rest (by simp)
            (by simpa [Json.wf] using hwf)
            (by simp only [jfuel] at hfuel; omega)]
    · cases xs with
      | nil => exact absurd rfl hne
      | cons x xs2 =>
        simp only [Json.wfList, Bool.and_eq_true] at hwf
        simp only [jfuelItems] at hfuel
        rw [parseItems_succ]
        cases xs2 with
        | nil =>
          rw [show Json.serializeItems [x] ++ ']' :: rest =
            Json.serializeChars x ++ ']' :: rest from rfl]
          rw [ihv x (']' :: rest) hwf.1 (by omega)
            (numOk_cons ']' rest (by decide))]
          rfl
        | cons y ys =>
          have hassoc : Json.serializeItems (x :: y :: ys) ++ ']' :: rest =
              Json.serializeChars x ++
                (',' :: (Json.serializeItems (y :: ys) ++ ']' :: rest)) := by
            rw [serializeItems_cons]
            simp [itemsSep]
          rw [hassoc]
          rw [ihv x _ hwf.1 (by omega) (numOk_cons ',' _ (by decide))]
          dsimp only
          rw [skipWs_cons ',' _ (by decide)]
          dsimp only
          rw [if_pos rfl]
          rw [ihi (y :: ys) rest (by simp) hwf.2 (by omega)]
    · cases kvs with
      | nil => exact absurd rfl hne
      | cons kv kvs2 =>
        obtain ⟨k, v⟩ := kv
        simp only [Json.wfFields, Bool.and_eq_true] at hwf
        simp only [jfuelFields] at hfuel
        rw [parseFields_succ]
        have hkey : k.toList.all plainChar = true := hwf.1.1
        have hbody : Json.serializeFields ((k, v) :: kvs2) ++ '\x7d' :: rest =
            '"' :: (k.toList ++ '"' ::
              (':' :: (Json.serializeChars v ++ fieldsSep kvs2 ++ '\x7d' :: rest))) := by
          rw [serializeFields_cons]
          simp
        rw [hbody, skipWs_cons '"' _ (by decide)]
        dsimp only
        rw [if_pos rfl]
        rw [parseStrChars_plain k.toList _ hkey]
        dsimp only
        rw [skipWs_cons ':' _ (by decide)]
        dsimp only
        rw [if_pos rfl]
        cases kvs2 with
        | nil =>
          rw [show Json.serializeChars v ++ fieldsSep [] ++ '\x7d' :: rest =
            Json.serializeChars v ++ '\x7d' :: rest from by simp [fieldsSep]]
          rw [ihv v _ hwf.1.2 (by omega) (numOk_cons '\x7d' _ (by decide))]
          dsimp only
          rw [skipWs_cons '\x7d' _ (by decide)]
          dsimp only
          rw [if_neg (by decide), if_pos rfl]
          rfl
        | cons kv2 kvs3 =>
          rw [show Json.serializeChars v ++ fieldsSep (kv2 :: kvs3) ++ '\x7d' :: rest =
            Json.serializeChars v ++
              (',' :: (Json.serializeFields (kv2 :: kvs3) ++ '\x7d' :: rest)) from by
            simp [fieldsSep]]
          rw [ihv v _ hwf.1.2 (by omega) (numOk_cons ',' _ (by decide))]
          dsimp only
          rw [skipWs_cons ',' _ (by decide)]
          dsimp only
          rw [if_pos rfl]
          rw [ihf (kv2 :: kvs3) rest (by simp) hwf.2 (by omega)]
          rfl

/-- ASCII characters (code below 128), on which the byte-to-string pipeline
of `parseJwt` is the identity. -/
def asciiOk (c : Char) : Bool := c.toNat < 0x80

/-- Digit characters are ASCII. -/
theorem isDigit_ascii (c : Char) (h : c.isDigit = true) : asciiOk c = true := by
  simp only [Char.isDigit, Bool.and_eq_true, decide_eq_true_eq] at h
  simp only [asciiOk, decide_eq_true_eq, Char.toNat]
  obtain ⟨h1, h2⟩ := h
  have h3 : c.val.toNat ≤ ('9' : Char).val.toNat := h2
  have h4 : ('9' : Char).val.toNat = 57 := rfl
  omega

/-- Plain string characters are ASCII. -/
theorem plainChar_ascii (c : Char) (h : plainChar c = true) : asciiOk c = true := by
  simp only [plainChar, Bool.and_eq_true, decide_eq_true_eq] at h
  simp only [asciiOk, decide_eq_true_eq]
  omega

/-- A printed integer is a non-empty list of ASCII characters. -/
theorem intDigits_facts (n : Int) :
    1 ≤ (intDigits n).length ∧ (intDigits n).all asciiOk = true := by
  obtain ⟨hne, hdig, _⟩ := natDigits_spec n.toNat
  obtain ⟨hne2, hdig2, _⟩ := natDigits_spec (-n).toNat
  have hascii : ∀ l : List Char, l.all Char.isDigit = true → l.all asciiOk = true := by
    intro l hl
    simp only [List.all_eq_true] at hl ⊢
    exact fun c hc => isDigit_ascii c (hl c hc)
  unfold intDigits
  by_cases hn : n < 0
  · rw [if_pos hn]
    refine ⟨by simp, ?_⟩
    simp only [List.all_cons, Bool.and_eq_true]
    exact ⟨by decide, hascii _ hdig2⟩
  · rw [if_neg hn]
    exact ⟨List.length_pos.mpr hne, hascii _ hdig⟩

/-- Fuel and character bounds for the serializer, by strong induction on the
size of the value: the fuel a value needs is at most its serialized length
(one more for non-empty bodies), and serialized well-formed values are pure
ASCII. -/
theorem serialize_bounds (n : Nat) :
    (∀ j : Json, sizeOf j < n →
      jfuel j ≤ (Json.serializeChars j).length ∧
        (j.wf = true → (Json.serializeChars j).all asciiOk = true)) ∧
    (∀ xs : List Json, sizeOf xs < n →
      jfuelItems xs ≤ 1 + (Json.serializeItems xs).length ∧
        (Json.wfList xs = true → (Json.serializeItems xs).all asciiOk = true)) ∧
    (∀ kvs : List (String × Json), sizeOf kvs < n →
      jfuelFields kvs ≤ 1 + (Json.serializeFields kvs).length ∧
        (Json.wfFields kvs = true → (Json.serializeFields kvs).all asciiOk = true)) := by
  induction n with
  | zero =>
    exact ⟨fun j h => absurd h (by omega), fun xs h => absurd h (by omega),
      fun kvs h => absurd h (by omega)⟩
  | succ m ih =>
    obtain ⟨ihv, ihi, ihf⟩ := ih
    refine ⟨fun j hsz => ?_, fun xs hsz => ?_, fun kvs hsz => ?_⟩
    · cases j with
      | null => exact ⟨by decide, fun _ => by decide⟩
      | bool b => cases b <;> exact ⟨by decide, fun _ => by decide⟩
      | num k =>
        obtain ⟨hlen, hascii⟩ := intDigits_facts k
        exact ⟨hlen, fun _ => hascii⟩
      | str s =>
        constructor
        · show 1 ≤ ('"' :: s.toList ++ ['"']).length
          simp
        · intro hwf
          have hplain : s.toList.all plainChar = true := hwf
          show (('"' :: s.toList ++ ['"']).all asciiOk) = true
          simp only [List.all_eq_true] at hplain ⊢
          intro c hc
          simp only [List.cons_append, List.mem_cons, List.mem_append,
            List.mem_singleton, List.mem_nil_iff, or_false] at hc
          rcases hc with rfl | hc | rfl
          · decide
          · exact plainChar_ascii c (hplain c hc)
          · decide
      | arr xs =>
        have hx : sizeOf xs < m := by
          simp at hsz
          omega
        obtain ⟨hlen, hascii⟩ := ihi xs hx
        constructor
        · show 1 + jfuelItems xs ≤ ('[' :: Json.serializeItems xs ++ [']']).length
          simp only [List.cons_append, List.length_cons, List.length_append,
            List.length_cons, List.length_nil]
          omega
        · intro hwf
          have h2 := hascii (by simpa [Json.wf] using hwf)
          show (('[' :: Json.serializeItems xs ++ [']']).all asciiOk) = true
          simp only [List.all_eq_true] at h2 ⊢
          intro c hc
          simp only [List.cons_append, List.mem_cons, List.mem_append,
            List.mem_singleton, List.mem_nil_iff, or_false] at hc
          rcases hc with rfl | hc | rfl
          · decide
          · exact h2 c hc
          · decide
      | obj kvs =>
        have hx : sizeOf kvs < m := by
          simp at hsz
          omega
        obtain ⟨hlen, hascii⟩ := ihf kvs hx
        constructor
        · show 1 + jfuelFields kvs ≤ ('\x7b' :: Json.serializeFields kvs ++ ['\x7d']).length
          simp only [List.cons_append, List.length_cons, List.length_append,
            List.length_cons, List.length_nil]
          omega
        · intro hwf
          have h2 := hascii (by simpa [Json.wf] using hwf)
          show (('\x7b' :: Json.serializeFields kvs ++ ['\x7d']).all asciiOk) = true
          simp only [List.all_eq_true] at h2 ⊢
          intro c hc
          simp only [List.cons_append, List.mem_cons, List.mem_append,
            List.mem_singleton, List.mem_nil_iff, or_false] at hc
          rcases hc with rfl | hc | rfl
          · decide
          · exact h2 c hc
          · decide
    · cases xs with
      | nil => exact ⟨by decide, fun _ => by decide⟩
      | cons x xs2 =>
        have hx : sizeOf x < m := by
          simp at hsz
          omega
        have hx2 : sizeOf xs2 < m := by
          simp at hsz
          omega
        obtain ⟨hlen1, hascii1⟩ := ihv x hx
        obtain ⟨hlen2, hascii2⟩ := ihi xs2 hx2
        rw [serializeItems_cons]
        constructor
        · cases xs2 with
          | nil =>
            show 1 + jfuel x + jfuelItems [] ≤ _
            simp only [itemsSep, jfuelItems, List.append_nil, List.length_append]
            omega
          | cons y ys =>
            show 1 + jfuel x + jfuelItems (y :: ys) ≤ _
            have hsi : itemsSep (y :: ys) = ',' :: Json.serializeItems (y :: ys) := rfl
            rw [hsi]
            simp only [List.length_append, List.length_cons]
            simp only [jfuelItems] at hlen2 ⊢
            omega
        · intro hwf
          simp only [Json.wfList, Bool.and_eq_true] at hwf
          have h1 := hascii1 hwf.1
          have h2 := hascii2 hwf.2
          cases xs2 with
          | nil => simpa [itemsSep] using h1
          | cons y ys =>
            have hsi : itemsSep (y :: ys) = ',' :: Json.serializeItems (y :: ys) := rfl
            rw [hsi]
            simp only [List.all_append, List.all_cons, Bool.and_eq_true]
            exact ⟨h1, by decide, h2⟩
    · cases kvs with
      | nil => exact ⟨by decide, fun _ => by decide⟩
      | cons kv kvs2 =>
        obtain ⟨k, v⟩ := kv
        have hv : sizeOf v < m := by
          simp at hsz
          omega
        have hk2 : sizeOf kvs2 < m := by
          simp at hsz
          omega
        obtain ⟨hlen1, hascii1⟩ := ihv v hv
        obtain ⟨hlen2, hascii2⟩ := ihf kvs2 hk2
        rw [serializeFields_cons]
        constructor
        · cases kvs2 with
          | nil =>
            show 1 + jfuel v + jfuelFields [] ≤ _
            simp only [fieldsSep, jfuelFields, List.append_nil, List.length_cons,
              List.length_append]
            omega
          | cons kv2 kvs3 =>
            show 1 + jfuel v + jfuelFields (kv2 :: kvs3) ≤ _
            have hsf : fieldsSep (kv2 :: kvs3) = ',' :: Json.serializeFields (kv2 :: kvs3) := rfl
            rw [hsf]
            simp only [List.length_cons, List.length_append]
            simp only [jfuelFields] at hlen2 ⊢
            omega
        · intro hwf
          simp only [Json.wfFields, Bool.and_eq_true] at hwf
          have h1 := hascii1 hwf.1.2
          have h2 := hascii2 hwf.2
          have hkey : k.toList.all plainChar = true := hwf.1.1
          have hkey2 : k.toList.all asciiOk = true := by
            simp only [List.all_eq_true] at hkey ⊢
            exact fun c hc => plainChar_ascii c (hkey c hc)
          cases kvs2 with
          | nil =>
            simp only [fieldsSep, List.append_nil, List.all_cons, List.all_append,
              Bool.and_eq_true]
            exact ⟨by decide, hkey2, by decide, by decide, h1⟩
          | cons kv2 kvs3 =>
            have hsf : fieldsSep (kv2 :: kvs3) = ',' :: Json.serializeFields (kv2 :: kvs3) := rfl
            rw [hsf]
            simp only [List.all_cons, List.all_append, Bool.and_eq_true]
            exact ⟨by decide, hkey2, by decide, by decide, h1, by decide, h2⟩

/-- `JSON.parse` inverts the serializer on well-formed values. -/
theorem jsonParse_serialize (j : Json) (hwf : j.wf = true) :
    jsonParse (Json.serialize j) = some j := by
  obtain ⟨hfuelb, hascii⟩ := (serialize_bounds (sizeOf j + 1)).1 j (by omega)
  have hlen : (Json.serialize j).length = (Json.serializeChars j).length := rfl
  have hlist : (Json.serialize j).toList = Json.serializeChars j := rfl
  have h := (parse_rt ((Json.serialize j).length + 1)).1 j [] hwf (by omega) trivial
  rw [List.append_nil] at h
  unfold jsonParse
  rw [hlist, h]
  rfl

/-- The serialization of a well-formed value is pure ASCII. -/
theorem serialize_ascii (j : Json) (hwf : j.wf = true) :
    (Json.serialize j).toList.all asciiOk = true :=
  ((serialize_bounds (sizeOf j + 1)).1 j (by omega)).2 hwf

/-- Packing bytes into 6-bit groups and unpacking them again is the identity
on byte sequences. -/
theorem b64DecodeVals_encode (bs : List Nat) (h : ∀ b ∈ bs, b < 256) :
    b64DecodeVals (b64EncodeVals bs) = bs := by
  induction bs using b64EncodeVals.induct with
  | case1 => rfl
  | case2 b1 =>
    have h1 : b1 < 256 := h b1 (by simp)
    show b64DecodeVals [b1 / 4, b1 % 4 * 16] = [b1]
    unfold b64DecodeVals
    have : b1 / 4 * 4 + b1 % 4 * 16 / 16 = b1 := by omega
    rw [this]
  | case3 b1 b2 =>
    have h1 : b1 < 256 := h b1 (by simp)
    have h2 : b2 < 256 := h b2 (by simp)
    show b64DecodeVals [b1 / 4, b1 % 4 * 16 + b2 / 16, b2 % 16 * 4] = [b1, b2]
    unfold b64DecodeVals
    have e1 : b1 / 4 * 4 + (b1 % 4 * 16 + b2 / 16) / 16 = b1 := by omega
    have e2 : (b1 % 4 * 16 + b2 / 16) % 16 * 16 + b2 % 16 * 4 / 4 = b2 := by omega
    rw [e1, e2]
  | case4 b1 b2 b3 rest ih =>
    have h1 : b1 < 256 := h b1 (by simp)
    have h2 : b2 < 256 := h b2 (by simp)
    have h3 : b3 < 256 := h b3 (by simp)
    have hrest : ∀ b ∈ rest, b < 256 := fun b hb => h b (by simp [hb])
    show b64DecodeVals (b1 / 4 :: (b1 % 4 * 16 + b2 / 16) :: (b2 % 16 * 4 + b3 / 64) ::
      b3 % 64 :: b64EncodeVals rest) = b1 :: b2 :: b3 :: rest
    unfold b64DecodeVals
    have e1 : b1 / 4 * 4 + (b1 % 4 * 16 + b2 / 16) / 16 = b1 := by omega
    have e2 : (b1 % 4 * 16 + b2 / 16) % 16 * 16 + (b2 % 16 * 4 + b3 / 64) / 4 = b2 := by omega
    have e3 : (b2 % 16 * 4 + b3 / 64) % 4 * 64 + b3 % 64 = b3 := by omega
    rw [e1, e2, e3, ih hrest]

/-- The 6-bit groups produced by the packer are below 64. -/
theorem b64EncodeVals_lt (bs : List Nat) (h : ∀ b ∈ bs, b < 256) :
    ∀ v ∈ b64EncodeVals bs, v < 64 := by
  induction bs using b64EncodeVals.induct with
  | case1 => simp [b64EncodeVals]
  | case2 b1 =>
    have h1 : b1 < 256 := h b1 (by simp)
    show ∀ v ∈ [b1 / 4, b1 % 4 * 16], v < 64
    simp only [List.mem_cons, List.mem_singleton, List.mem_nil_iff, or_false]
    rintro v (rfl | rfl) <;> omega
  | case3 b1 b2 =>
    have h1 : b1 < 256 := h b1 (by simp)
    have h2 : b2 < 256 := h b2 (by simp)
    show ∀ v ∈ [b1 / 4, b1 % 4 * 16 + b2 / 16, b2 % 16 * 4], v < 64
    simp only [List.mem_cons, List.mem_singleton, List.mem_nil_iff, or_false]
    rintro v (rfl | rfl | rfl) <;> omega
  | case4 b1 b2 b3 rest ih =>
    have h1 : b1 < 256 := h b1 (by simp)
    have h2 : b2 < 256 := h b2 (by simp)
    have h3 : b3 < 256 := h b3 (by simp)
    have hrest : ∀ b ∈ rest, b < 256 := fun b hb => h b (by simp [hb])
    show ∀ v ∈ b1 / 4 :: (b1 % 4 * 16 + b2 / 16) :: (b2 % 16 * 4 + b3 / 64) ::
      b3 % 64 :: b64EncodeVals rest, v < 64
    simp only [List.mem_cons]
    rintro v (rfl | rfl | rfl | rfl | hv)
    · omega
    · omega
    · omega
    · omega
    · exact ih hrest v hv

/-- For every 6-bit value, the base64url character mapped back to the
standard alphabet decodes to that value, is not padding, and is not a dot. -/
theorem b64UrlChar_facts : ∀ v : Nat, v < 64 →
    b64StdVal (urlToStdChar (b64UrlChar v)) = some v ∧
      urlToStdChar (b64UrlChar v) ≠ '=' ∧ b64UrlChar v ≠ '.' := by
  decide

/-- `takeWhile` over a list all of whose elements pass is the list itself. -/
theorem takeWhile_all {p : Char → Bool} (l : List Char) (h : ∀ c ∈ l, p c = true) :
    l.takeWhile p = l := by
  induction l with
  | nil => rfl
  | cons c cs ih =>
    rw [List.takeWhile_cons, if_pos (h c (by simp))]
    rw [ih fun c hc => h c (by simp [hc])]

/-- Node's forgiving base64 decoder inverts the url-to-standard replacement
and unpadded base64url encoding of any byte sequence. -/
theorem nodeBase64Decode_encode (bs : List Nat) (h : ∀ b ∈ bs, b < 256) :
    nodeBase64Decode ⟨(b64UrlEncodeChars bs).map urlToStdChar⟩ = bs := by
  have hvals := b64EncodeVals_lt bs h
  unfold nodeBase64Decode b64UrlEncodeChars
  have hlist : (String.mk ((b64EncodeVals bs).map b64UrlChar |>.map urlToStdChar)).toList =
      (b64EncodeVals bs).map (fun v => urlToStdChar (b64UrlChar v)) := by
    simp [String.toList, List.map_map, Function.comp]
  rw [hlist]
  have htake : ((b64EncodeVals bs).map fun v => urlToStdChar (b64UrlChar v)).takeWhile
      (· ≠ '=') = (b64EncodeVals bs).map fun v => urlToStdChar (b64UrlChar v) := by
    apply takeWhile_all
    intro c hc
    simp only [List.mem_map] at hc
    obtain ⟨v, hv, rfl⟩ := hc
    have := (b64UrlChar_facts v (hvals v hv)).2.1
    simpa using this
  rw [htake, List.filterMap_map]
  have hfm : ∀ vs : List Nat, (∀ v ∈ vs, v < 64) →
      vs.filterMap (fun v => b64StdVal (urlToStdChar (b64UrlChar v))) = vs := by
    intro vs
    induction vs with
    | nil => intro _; rfl
    | cons v vs2 ih =>
      intro hv
      rw [List.filterMap_cons, (b64UrlChar_facts v (hv v (by simp))).1]
      rw [ih fun u hu => hv u (by simp [hu])]
  rw [show (fun v => b64StdVal (urlToStdChar (b64UrlChar v))) =
    (b64StdVal ∘ fun v => urlToStdChar (b64UrlChar v)) from rfl] at *
  rw [hfm (b64EncodeVals bs) hvals]
  exact b64DecodeVals_encode bs h

/-- UTF-8 decoding of ASCII bytes is the bytewise character map. -/
theorem utf8DecodeAux_ascii (fuel : Nat) (bs : List Nat) (h : ∀ b ∈ bs, b < 0x80)
    (hfuel : bs.length ≤ fuel) : utf8DecodeAux fuel bs = bs.map Char.ofNat := by
  induction fuel generalizing bs with
  | zero =>
    cases bs with
    | nil => rfl
    | cons b rest => simp at hfuel
  | succ f ih =>
    cases bs with
    | nil => rfl
    | cons b rest =>
      have hb : b < 0x80 := h b (by simp)
      unfold utf8DecodeAux
      rw [if_pos hb]
      rw [ih rest (fun x hx => h x (by simp [hx])) (by simpa using Nat.succ_le_succ_iff.mp hfuel)]
      rfl

/-- Each hexadecimal digit character reads back as its value. -/
theorem hexVal_hexDigitChar : ∀ m : Nat, m < 16 → hexVal (hexDigitChar m) = some m := by
  decide

/-- A percent group whose digits read back gives its byte. -/
theorem pctByte_some (h l : Char) (rest : List Char) (a b : Nat)
    (hh : hexVal h = some a) (hl : hexVal l = some b) :
    pctByte ('%' :: h :: l :: rest) = some (a * 16 + b, rest) := by
  unfold pctByte
  dsimp only
  rw [if_pos rfl, hh, hl]

/-- One step of the `decodeURIComponent` worker on an ASCII percent group. -/
theorem decodeUriGo_pct (f : Nat) (h l : Char) (rest : List Char) (a b : Nat)
    (hh : hexVal h = some a) (hl : hexVal l = some b) (hb : a * 16 + b < 0x80) :
    decodeUriGo (f + 1) ('%' :: h :: l :: rest) =
      match decodeUriGo f rest with
      | some cs => some (Char.ofNat (a * 16 + b) :: cs)
      | none => none := by
  conv_lhs => rw [decodeUriGo.eq_def]
  dsimp only
  rw [if_pos rfl, pctByte_some h l rest a b hh hl]
  dsimp only
  rw [if_pos hb]

/-- The `decodeURIComponent` worker inverts the percent-encoding step on
ASCII characters, at any adequate fuel. -/
theorem decodeUriGo_percentEncode (fuel : Nat) (cs : List Char)
    (h : ∀ c ∈ cs, asciiOk c = true) (hfuel : (percentEncode cs).length < fuel) :
    decodeUriGo fuel (percentEncode cs) = some cs := by
  induction cs generalizing fuel with
  | nil =>
    cases fuel with
    | zero => omega
    | succ f => rfl
  | cons c cs2 ih =>
    have hc : c.toNat < 0x80 := by
      have := h c (by simp)
      simpa [asciiOk] using this
    have hpe : percentEncode (c :: cs2) =
        '%' :: hexDigitChar (c.toNat % 256 / 16) :: hexDigitChar (c.toNat % 16) ::
          percentEncode cs2 := by
      simp only [percentEncode, List.map_cons, List.flatten_cons, List.cons_append,
        List.nil_append]
    have hlen : (percentEncode (c :: cs2)).length = 3 + (percentEncode cs2).length := by
      rw [hpe]
      simp only [List.length_cons]
      omega
    cases fuel with
    | zero => omega
    | succ f =>
      rw [hpe, decodeUriGo_pct f _ _ _ (c.toNat % 256 / 16) (c.toNat % 16)
        (hexVal_hexDigitChar _ (by omega)) (hexVal_hexDigitChar _ (by omega)) (by omega)]
      rw [ih f (fun x hx => h x (by simp [hx])) (by omega)]
      have hval : c.toNat % 256 / 16 * 16 + c.toNat % 16 = c.toNat := by omega
      rw [hval, Char.ofNat_toNat]

/-- `decodeURIComponent` inverts the percent-encoding step on ASCII
characters. -/
theorem decodeUriComp_percentEncode (cs : List Char) (h : ∀ c ∈ cs, asciiOk c = true) :
    decodeUriComp (percentEncode cs) = some cs :=
  decodeUriGo_percentEncode ((percentEncode cs).length + 1) cs h (by omega)

/-- The character of an ASCII code has that code. -/
theorem charToNat_ofNat (b : Nat) (hb : b < 0x80) : (Char.ofNat b).toNat = b := by
  have hv : b.isValidChar := Or.inl (by omega)
  unfold Char.ofNat
  rw [dif_pos hv]
  unfold Char.ofNatAux Char.toNat
  simp [UInt32.toNat, BitVec.toNat_ofNatLt]

/-- The byte-to-string pipeline of `parseJwt` is the identity on ASCII byte
sequences. -/
theorem pipelineDecode_ascii (bs : List Nat) (h : ∀ b ∈ bs, b < 0x80) :
    pipelineDecode bs = some ⟨bs.map Char.ofNat⟩ := by
  unfold pipelineDecode utf8DecodeReplace
  rw [utf8DecodeAux_ascii bs.length bs h le_rfl]
  rw [decodeUriComp_percentEncode (bs.map Char.ofNat) ?_]
  · rfl
  · intro c hc
    simp only [List.mem_map] at hc
    obtain ⟨b, hb, rfl⟩ := hc
    have hb2 : b < 0x80 := h b hb
    have : (Char.ofNat b).toNat = b := charToNat_ofNat b hb2
    simp [asciiOk, this]
    omega

/-- The whole payload decode of `parseJwt` (url-to-standard replacement,
forgiving base64 decode, byte-to-string pipeline) inverts the base64url
encoding of any ASCII payload text. -/
theorem decodePayloadSeg_encode (t : String) (ht : t.toList.all asciiOk = true) :
    decodePayloadSeg (b64UrlOfString t) = some t := by
  have hbytes : ∀ b ∈ strBytes t, b < 0x80 := by
    intro b hb
    simp only [strBytes, List.mem_map] at hb
    obtain ⟨c, hc, rfl⟩ := hb
    have := List.all_eq_true.mp ht c hc
    simpa [asciiOk] using this
  have hbytes256 : ∀ b ∈ strBytes t, b < 256 := fun b hb => by
    have := hbytes b hb
    omega
  unfold decodePayloadSeg
  have hseg : (b64UrlOfString t).toList = b64UrlEncodeChars (strBytes t) := rfl
  rw [hseg, nodeBase64Decode_encode (strBytes t) hbytes256]
  rw [pipelineDecode_ascii (strBytes t) hbytes]
  have hmap : (strBytes t).map Char.ofNat = t.toList := by
    simp only [strBytes, List.map_map]
    have : (Char.ofNat ∘ Char.toNat) = id := by
      funext c
      exact Char.ofNat_toNat c
    rw [this, List.map_id]
  rw [hmap]
  rfl

/-- Splitting input that starts with a separator-free block followed by a
separator emits that block (after the pending accumulator) and continues
afresh. -/
theorem splitOnCharAux_no_sep (sep : Char) (l rest acc : List Char)
    (h : ∀ c ∈ l, c ≠ sep) :
    splitOnCharAux sep (l ++ sep :: rest) acc =
      (acc.reverse ++ l) :: splitOnCharAux sep rest [] := by
  induction l generalizing acc with
  | nil =>
    show splitOnCharAux sep (sep :: rest) acc = _
    conv_lhs => rw [splitOnCharAux.eq_def]
    dsimp only
    rw [if_pos rfl]
    simp
  | cons c l2 ih =>
    have hc : c ≠ sep := h c (by simp)
    show splitOnCharAux sep (c :: (l2 ++ sep :: rest)) acc = _
    conv_lhs => rw [splitOnCharAux.eq_def]
    dsimp only
    rw [if_neg hc, ih (c :: acc) fun x hx => h x (by simp [hx])]
    simp

/-- Splitting a separator-free input yields the single pending segment. -/
theorem splitOnCharAux_last (sep : Char) (l acc : List Char)
    (h : ∀ c ∈ l, c ≠ sep) :
    splitOnCharAux sep l acc = [acc.reverse ++ l] := by
  induction l generalizing acc with
  | nil =>
    conv_lhs => rw [splitOnCharAux.eq_def]
    simp
  | cons c l2 ih =>
    have hc : c ≠ sep := h c (by simp)
    conv_lhs => rw [splitOnCharAux.eq_def]
    dsimp only
    rw [if_neg hc, ih (c :: acc) fun x hx => h x (by simp [hx])]
    simp

/-- The characters of a base64url-encoded ASCII string never include a dot,
so the payload survives the dot split of `parseJwt` intact. -/
theorem b64UrlOfString_no_dot (t : String) (ht : t.toList.all asciiOk = true) :
    ∀ c ∈ (b64UrlOfString t).toList, c ≠ '.' := by
  intro c hc
  have hbytes256 : ∀ b ∈ strBytes t, b < 256 := by
    intro b hb
    simp only [strBytes, List.mem_map] at hb
    obtain ⟨x, hx, rfl⟩ := hb
    have := List.all_eq_true.mp ht x hx
    simp only [asciiOk, decide_eq_true_eq] at this
    omega
  have hseg : (b64UrlOfString t).toList = (b64EncodeVals (strBytes t)).map b64UrlChar := rfl
  rw [hseg] at hc
  simp only [List.mem_map] at hc
  obtain ⟨v, hv, rfl⟩ := hc
  exact (b64UrlChar_facts v (b64EncodeVals_lt (strBytes t) hbytes256 v hv)).2.2

/-- The payload segment of a three-part token whose header and payload are
dot-free is recovered exactly by the dot split. -/
theorem jsSplit_get1 (hdr mid sig : String)
    (hhdr : ∀ c ∈ hdr.toList, c ≠ '.') (hmid : ∀ c ∈ mid.toList, c ≠ '.') :
    (jsSplit (hdr ++ "." ++ mid ++ "." ++ sig) '.').get? 1 = some mid := by
  have htl : (hdr ++ "." ++ mid ++ "." ++ sig).toList =
      hdr.toList ++ '.' :: (mid.toList ++ '.' :: sig.toList) := by
    show (hdr ++ "." ++ mid ++ "." ++ sig).data =
      hdr.data ++ '.' :: (mid.data ++ '.' :: sig.data)
    simp [String.data_append]
  unfold jsSplit
  rw [htl, splitOnCharAux_no_sep '.' hdr.toList _ [] hhdr,
    splitOnCharAux_no_sep '.' mid.toList _ [] hmid]
  simp only [List.reverse_nil, List.nil_append, List.map_cons]
  rfl

/-- **C5 (counterexample).** The claim says `parseJwt` fails whenever the dot
split does not yield exactly three segments, or the payload is not valid
base64url. The code never counts segments (it only reads segment index 1),
and Node's forgiving base64 decoder drops characters outside the alphabet: a
four-segment token parses successfully, and so does a token whose payload
segment starts with `!`, a character outside the base64url alphabet. -/
theorem parseJwt_counterexample :
    (jsSplit "h.e30.s.x" '.').length = 4 ∧
      parseJwt "h.e30.s.x" = .ok (.obj []) ∧
      (jsSplit "h.!e30.s" '.').get? 1 = some "!e30" ∧
      b64StdVal (urlToStdChar '!') = none ∧
      parseJwt "h.!e30.s" = .ok (.obj []) :=
  ⟨by rfl, by rfl, by rfl, by rfl, by rfl⟩

/-- **C5 (amended).** `parseJwt` reads only segment index 1 of the dot split:
with fewer than two segments it throws (the `replace` call on `undefined`),
so it never returns a claims object there; every successful result is the
complete `JSON.parse` of the fully decoded payload segment, never a partial
object; and for every three-part `header.payload.signature` token built from
a well-formed claims object it returns exactly that object. -/
theorem parseJwt_spec :
    (∀ token : String, (jsSplit token '.').length ≤ 1 →
      parseJwt token = .error "TypeError: token has no payload segment") ∧
    (∀ (token : String) (j : Json), parseJwt token = .ok j →
      ∃ seg, (jsSplit token '.').get? 1 = some seg ∧
        ∃ payload, decodePayloadSeg seg = some payload ∧ jsonParse payload = some j) ∧
    (∀ (hdr sig : String) (j : Json), j.wf = true →
      (∀ c ∈ hdr.toList, c ≠ '.') →
      parseJwt (mkJwt hdr (Json.serialize j) sig) = .ok j) := by
  refine ⟨fun token hlen => ?_, fun token j hok => ?_, fun hdr sig j hwf hhdr => ?_⟩
  · have hget : (jsSplit token '.').get? 1 = none := by
      rw [List.get?_eq_none]
      omega
    unfold parseJwt
    rw [hget]
  · unfold parseJwt at hok
    cases hsplit : (jsSplit token '.').get? 1 with
    | none =>
      rw [hsplit] at hok
      exact absurd hok (by simp)
    | some seg =>
      rw [hsplit] at hok
      dsimp only at hok
      cases hdec : decodePayloadSeg seg with
      | none =>
        rw [hdec] at hok
        exact absurd hok (by simp)
      | some payload =>
        rw [hdec] at hok
        dsimp only at hok
        cases hjson : jsonParse payload with
        | none =>
          rw [hjson] at hok
          exact absurd hok (by simp)
        | some j2 =>
          rw [hjson] at hok
          dsimp only at hok
          have hj : j2 = j := by
            simpa using hok
          exact ⟨seg, rfl, payload, hdec, by rw [hjson, hj]⟩
  · have hasc := serialize_ascii j hwf
    have hmid := b64UrlOfString_no_dot (Json.serialize j) hasc
    have hsplit1 := jsSplit_get1 hdr (b64UrlOfString (Json.serialize j)) sig hhdr hmid
    show parseJwt (hdr ++ "." ++ b64UrlOfString (Json.serialize j) ++ "." ++ sig) = .ok j
    unfold parseJwt
    rw [hsplit1]
    dsimp only
    rw [decodePayloadSeg_encode (Json.serialize j) hasc]
    dsimp only
    rw [jsonParse_serialize j hwf]

/-- **C5 witness.** The amended theorem applied at concrete inputs: a token
with no dot throws the payload-segment error, a successful parse of
`h.e30.s` decomposes through the split, decode and JSON stages, and a
concrete round trip through `mkJwt` returns the encoded claims object. -/
theorem parseJwt_spec_witness :
    parseJwt "nodotshere" = .error "TypeError: token has no payload segment" ∧
    (∃ seg, (jsSplit "h.e30.s" '.').get? 1 = some seg ∧
      ∃ payload, decodePayloadSeg seg = some payload ∧
        jsonParse payload = some (.obj [])) ∧
    parseJwt (mkJwt "hd" (Json.serialize (Json.obj [("exp", Json.num 7)])) "sg") =
      .ok (Json.obj [("exp", Json.num 7)]) :=
  ⟨parseJwt_spec.1 "nodotshere" (by decide),
   parseJwt_spec.2.1 "h.e30.s" (.obj []) (by rfl),
   parseJwt_spec.2.2 "hd" "sg" (Json.obj [("exp", Json.num 7)]) (by decide) (by decide)⟩

end UIVite
